import Mathlib

/-!
# Verification of the subreddit graph crawler's store, frontier and analysis code

Shallow embedding of `src/database/database.ts`, `src/analysis/list-hub-clusters.ts`,
`src/analysis/mangle.ts` and the export pipeline
(`src/analysis/common-types.ts`, `src/analysis/get-json.ts`).

Modelling conventions:
* Strings are lists of Unicode code points (`List Nat`); JS `toLowerCase` is
  modelled on the ASCII range, which covers every character the crawler stores.
* The SQLite `subreddit_queue` table is a list of rows in insertion order with
  a strictly increasing `added_at` counter (`CURRENT_TIMESTAMP` made exact);
  `subreddit_edges` is a list of `(from_id, to_id)` pairs kept unique by
  `INSERT OR IGNORE` + `UNIQUE(from_id, to_id)`.
* Fallible operations (a failed `assert`, a FOREIGN KEY violation, a failed
  `zod` parse) return `Except String`.
* JS `Map` objects are association lists with insert-or-overwrite-in-place
  semantics (`jsMapSet`/`jsMapGet`), JS `Set` objects insertion-ordered
  duplicate-free lists (`setAdd`).
-/

set_option maxHeartbeats 1000000

namespace Cloud18

/-- Strings as lists of Unicode code points. -/
abbrev Name := List Nat

/-- Code points of a Lean string literal, for concrete names. -/
def str (s : String) : Name := s.data.map Char.toNat

/-- ASCII lowercasing of one code point (`65..90` are `A..Z`), the action of
JS `toLowerCase` on the names the crawler handles. -/
def lowerChar (c : Nat) : Nat := if 65 ≤ c ∧ c ≤ 90 then c + 32 else c

def toLowerName (s : Name) : Name := s.map lowerChar

/-- `replace(/^r\//, "")`: remove one leading `r/` (code points 114, 47). -/
def stripRSlash (t : Name) : Name :=
  match t with
  | a :: b :: rest => if a = 114 ∧ b = 47 then rest else t
  | _ => t

/-- `subreddit.toLowerCase().replace(/^r\//, "")`, the name normalization used
by `addToQueue`, `getSubredditId`, `updateMeta` and `markVisited`
(src/database/database.ts:110,127,171,196). -/
def normalizeSub (s : Name) : Name := stripRSlash (toLowerName s)

/-! ## The graph store (src/database/database.ts) -/

/-- One row of `subreddit_queue`:
`id INTEGER PRIMARY KEY AUTOINCREMENT, subreddit TEXT UNIQUE NOT NULL,
visited BOOLEAN DEFAULT FALSE, subscribers INTEGER DEFAULT NULL,
nsfw BOOLEAN DEFAULT NULL, added_at TIMESTAMP DEFAULT CURRENT_TIMESTAMP`. -/
structure Row where
  id : Nat
  subreddit : Name
  visited : Bool
  subscribers : Option Int
  nsfw : Option Bool
  added_at : Nat
deriving DecidableEq, Repr

/-- The database state: `subreddit_queue` rows in insertion order,
`subreddit_edges` pairs in insertion order, the AUTOINCREMENT counter and the
timestamp counter. -/
structure DB where
  rows : List Row
  edges : List (Nat × Nat)
  nextId : Nat
  clock : Nat
deriving DecidableEq, Repr

def emptyDB : DB := ⟨[], [], 1, 0⟩

/-- `SELECT ... FROM subreddit_queue WHERE subreddit = ?` (unique name). -/
def findRow (db : DB) (name : Name) : Option Row :=
  db.rows.find? (fun r => decide (r.subreddit = name))

/-- `addToQueue` (src/database/database.ts:109-122): normalizeSub,
`INSERT OR IGNORE ... (subreddit, visited) VALUES (?, FALSE)`, then
`SELECT id ... WHERE subreddit = ?`. -/
def addToQueue (db : DB) (subreddit : Name) : DB × Nat :=
  let n := normalizeSub subreddit
  match findRow db n with
  | some r => (db, r.id)
  | none =>
      ({ db with
          rows := db.rows ++ [⟨db.nextId, n, false, none, none, db.clock⟩],
          nextId := db.nextId + 1,
          clock := db.clock + 1 }, db.nextId)

/-- `getSubredditId` (src/database/database.ts:124-132): `SELECT id`, then
`assert(row.id)` — an absent row (or a falsy id) throws. -/
def getSubredditId (db : DB) (sub : Name) : Except String Nat :=
  match findRow db (normalizeSub sub) with
  | some r => if r.id = 0 then .error "assert failed" else .ok r.id
  | none => .error "assert failed"

def hasId (db : DB) (i : Nat) : Bool := db.rows.any (fun r => decide (r.id = i))

/-- `addEdgeById` (src/database/database.ts:139-158): falsy or equal ids are a
no-op; otherwise `INSERT OR IGNORE INTO subreddit_edges`, which with
`PRAGMA foreign_keys = ON` still rejects a missing endpoint. -/
def addEdgeById (db : DB) (fromId toId : Nat) : Except String DB :=
  if fromId = 0 ∨ toId = 0 ∨ fromId = toId then .ok db
  else if hasId db fromId ∧ hasId db toId then
    if (fromId, toId) ∈ db.edges then .ok db
    else .ok { db with edges := db.edges ++ [(fromId, toId)] }
  else .error "FOREIGN KEY constraint failed"

/-- `addEdge` (src/database/database.ts:133-137): resolve both names with
`getSubredditId`, then `addEdgeById`. -/
def addEdge (db : DB) (fromName toName : Name) : Except String DB := do
  let fromId ← getSubredditId db fromName
  let toId ← getSubredditId db toName
  addEdgeById db fromId toId

/-- `updateMeta` (src/database/database.ts:165-188):
`UPDATE subreddit_queue SET nsfw = ?, subscribers = ? WHERE subreddit = ?`;
no-op on an empty name. -/
def updateMeta (db : DB) (subreddit : Name) (nsfw : Bool) (subscribers : Int) : DB :=
  if subreddit = [] then db
  else
    let n := normalizeSub subreddit
    { db with rows := db.rows.map (fun r =>
        if r.subreddit = n then { r with nsfw := some nsfw, subscribers := some subscribers }
        else r) }

/-- `markVisited` (src/database/database.ts:194-213):
`UPDATE subreddit_queue SET visited = TRUE WHERE subreddit = ?`;
no-op on an empty name. -/
def markVisited (db : DB) (subreddit : Name) : DB :=
  if subreddit = [] then db
  else
    let n := normalizeSub subreddit
    { db with rows := db.rows.map (fun r =>
        if r.subreddit = n then { r with visited := true } else r) }

/-- `getNextUnvisited` (src/database/database.ts:219-235): `SELECT subreddit
FROM subreddit_queue WHERE visited = FALSE ORDER BY added_at LIMIT 1`. -/
def getNextUnvisited (db : DB) : Option Name :=
  match db.rows.filter (fun r => !r.visited) with
  | [] => none
  | r :: rs =>
      some ((rs.foldl (fun best c => if c.added_at < best.added_at then c else best) r).subreddit)

/-- `getUnvisitedCount` (src/database/database.ts:313-329):
`SELECT COUNT(*) FROM subreddit_queue WHERE visited = FALSE`. -/
def getUnvisitedCount (db : DB) : Nat :=
  (db.rows.filter (fun r => !r.visited)).length

/-- The first `n` names produced by `getUnvisitedGenerator`
(src/database/database.ts:335-343) when the consumer performs no store
mutation between pulls: the generator re-queries `getNextUnvisited` each
iteration; `if (!subreddit) break` is a JS truthiness test, so it stops on
`none` and also on a yielded empty-string name. -/
def genYields (db : DB) : Nat → List Name
  | 0 => []
  | Nat.succ n =>
      match getNextUnvisited db with
      | none => []
      | some s => if s = [] then [] else s :: genYields db n

/-- Draining `getUnvisitedGenerator` while the caller marks each yielded name
visited immediately (the spec's drain scenario), with fuel. Returns the
yielded names and the final state. -/
def drainIterate (db : DB) : Nat → List Name × DB
  | 0 => ([], db)
  | Nat.succ n =>
      match getNextUnvisited db with
      | none => ([], db)
      | some s =>
          let rest := drainIterate (markVisited db s) n
          (s :: rest.1, rest.2)

/-- `addEdgeById` repeated `n` times with the same endpoints, failures
propagating. -/
def addEdgeByIdN (db : DB) (fromId toId : Nat) : Nat → Except String DB
  | 0 => .ok db
  | Nat.succ n => do
      let d ← addEdgeByIdN db fromId toId n
      addEdgeById d fromId toId

/-- The store mutations the crawl loop can interleave with frontier pulls. -/
inductive Op where
  | enqueue (s : Name)
  | meta (s : Name) (nsfw : Bool) (subscribers : Int)
  | visit (s : Name)
  | edge (fromId toId : Nat)
deriving DecidableEq

/-- Apply one operation; a failed edge insert leaves the store unchanged. -/
def applyOp (db : DB) : Op → DB
  | .enqueue s => (addToQueue db s).1
  | .meta s n c => updateMeta db s n c
  | .visit s => markVisited db s
  | .edge f t => ((addEdgeById db f t).toOption).getD db

def applyOps (db : DB) (ops : List Op) : DB := ops.foldl applyOp db

/-- Invariants maintained by the schema and the operations: `added_at` strictly
increases in insertion order and stays below the clock, ids are positive,
bounded by the AUTOINCREMENT counter and unique, and the edge list is
duplicate-free (`UNIQUE(from_id, to_id)`). -/
def DB.wf (db : DB) : Prop :=
  db.rows.Pairwise (fun a b => a.added_at < b.added_at)
  ∧ (∀ r ∈ db.rows, r.added_at < db.clock)
  ∧ (∀ r ∈ db.rows, 1 ≤ r.id ∧ r.id < db.nextId)
  ∧ 1 ≤ db.nextId
  ∧ (db.rows.map Row.id).Nodup
  ∧ db.edges.Nodup

instance (db : DB) : Decidable db.wf := by
  unfold DB.wf; infer_instance

/-- The part of `DB.wf` that the frontier order depends on. -/
def frontierWf (db : DB) : Prop :=
  db.rows.Pairwise (fun a b => a.added_at < b.added_at)
  ∧ ∀ r ∈ db.rows, r.added_at < db.clock

/-- Whether an operation is `markVisited` of (a name normalizing to) `s`. -/
def opMarksName (op : Op) (s : Name) : Bool :=
  match op with
  | .visit t => decide (normalizeSub t = s)
  | _ => false

/-! ## JS containers: `Map` as association list, `Set` as duplicate-free list -/

/-- `Map.get`. -/
def jsMapGet {κ β : Type} [DecidableEq κ] (m : List (κ × β)) (k : κ) : Option β :=
  (m.find? (fun p => decide (p.1 = k))).map Prod.snd

/-- `Map.set`: overwrite in place when the key exists, append otherwise. -/
def jsMapSet {κ β : Type} [DecidableEq κ] (m : List (κ × β)) (k : κ) (v : β) : List (κ × β) :=
  if (m.find? (fun p => decide (p.1 = k))).isSome then
    m.map (fun p => if p.1 = k then (k, v) else p)
  else m ++ [(k, v)]

/-- `Set.add`: append unless already present. -/
def setAdd {α : Type} [DecidableEq α] (s : List α) (x : α) : List α :=
  if x ∈ s then s else s ++ [x]

/-! ## Snapshot export (src/analysis/common-types.ts, src/analysis/get-json.ts) -/

/-- The `SubredditRow` zod schema (src/analysis/common-types.ts:3-9): `id` and
`subscribers` must be numbers and `nsfw` a `0 | 1` literal — a NULL column
fails the parse. -/
structure SubredditRow where
  id : Nat
  subreddit : Name
  subscribers : Int
  nsfw : Bool
deriving DecidableEq, Repr

/-- Parsing one row against `SubredditRow`. -/
def parseSubredditRow (r : Row) : Except String SubredditRow :=
  match r.subscribers, r.nsfw with
  | some subs, some n => .ok ⟨r.id, r.subreddit, subs, n⟩
  | _, _ => .error "zod: expected number, received null"

/-- All-or-nothing evaluation of a JS `Array.map` whose body can throw, and of
a `z.array(...)` parse. -/
def mapExcept {α β : Type} (g : α → Except String β) : List α → Except String (List β)
  | [] => .ok []
  | a :: l => do
      let b ← g a
      let bs ← mapExcept g l
      .ok (b :: bs)

/-- `subreddits()` (src/database/database.ts:404-413): select every queue row
and parse the array with `z.array(SubredditRow)`. -/
def subreddits (db : DB) : Except String (List SubredditRow) :=
  mapExcept parseSubredditRow db.rows

/-- `NodeData` (src/analysis/common-types.ts:11-14): a `SubredditRow` extended
with the ordered outgoing target id list. -/
structure NodeData where
  id : Nat
  subreddit : Name
  subscribers : Int
  nsfw : Bool
  linksTo : List Nat
deriving DecidableEq, Repr

/-- The edge grouping in `getJSONFromDatabase` (src/analysis/get-json.ts):
reduce all `(from_id, to_id)` pairs into a map `from_id -> [to_id, ...]` in
insertion order. -/
def groupEdges (edges : List (Nat × Nat)) : List (Nat × List Nat) :=
  edges.foldl (fun acc e => jsMapSet acc e.1 (((jsMapGet acc e.1).getD []) ++ [e.2])) []

/-- `getJSONFromDatabase` (src/analysis/get-json.ts), the Snapshot Exporter
used by src/analysis/extract-graph-data.ts: join the grouped edges against the
parsed rows; `edges.get(row.id) ?? []`. -/
def getJSONFromDatabase (db : DB) : Except String (List NodeData) :=
  (subreddits db).map (fun rows => rows.map (fun row =>
    ⟨row.id, row.subreddit, row.subscribers, row.nsfw,
      (jsMapGet (groupEdges db.edges) row.id).getD []⟩))

/-! ## Community detection (src/analysis/list-hub-clusters.ts) -/

/-- `SubredditStats` (src/analysis/list-hub-clusters.ts:7-14). -/
structure SubredditStats where
  name : Name
  outDegree : Nat
  inDegree : Nat
  totalDegree : Nat
  outConnections : List Name
  inConnections : List Name
deriving DecidableEq, Repr

/-- `SmallSubreddit` (src/analysis/list-hub-clusters.ts:21). -/
structure SmallSubreddit where
  id : Nat
  subreddit : Name
deriving DecidableEq, Repr

/-- `CommunityWithHub` (src/analysis/list-hub-clusters.ts:23-26); the hub
(`name`) is `undefined` for an empty member list, hence the `Option`. -/
structure CommunityWithHub where
  name : Option SmallSubreddit
  members : List SmallSubreddit
deriving DecidableEq, Repr

/-- The `idToSubreddit` map built in `calculateNodeStatistics` and
`buildGraphFromNodeData`. -/
def idToSubreddit (nodeData : List NodeData) : List (Nat × Name) :=
  nodeData.foldl (fun m node => jsMapSet m node.id node.subreddit) []

/-- The `inDegree` map of `calculateNodeStatistics`
(src/analysis/list-hub-clusters.ts:131-143): for every link whose target id is
known, add the source name to the target name's set. The guard
`if (toSubreddit)` is a JS truthiness test: it also skips a resolved name that
is the empty string. -/
def inDegreeMap (nodeData : List NodeData) : List (Name × List Name) :=
  nodeData.foldl
    (fun m node =>
      node.linksTo.foldl
        (fun m toId =>
          match jsMapGet (idToSubreddit nodeData) toId with
          | some toSubreddit =>
              if toSubreddit = [] then m
              else jsMapSet m toSubreddit
                (setAdd ((jsMapGet m toSubreddit).getD []) node.subreddit)
          | none => m)
        m)
    []

/-- The per-node record built inside the `calculateNodeStatistics` loop
(src/analysis/list-hub-clusters.ts:146-163): resolvable out-links, the
in-degree set, and their counts. -/
def statsOf (nodeData : List NodeData) (node : NodeData) : SubredditStats :=
  let outConnections := node.linksTo.filterMap (jsMapGet (idToSubreddit nodeData))
  let inConnections := (jsMapGet (inDegreeMap nodeData) node.subreddit).getD []
  ⟨node.subreddit, outConnections.length, inConnections.length,
    outConnections.length + inConnections.length, outConnections, inConnections⟩

/-- `calculateNodeStatistics` (src/analysis/list-hub-clusters.ts:119-167). -/
def calculateNodeStatistics (nodeData : List NodeData) : List (Nat × SubredditStats) :=
  nodeData.foldl (fun m node => jsMapSet m node.id (statsOf nodeData node)) []

/-- `Graph` (src/analysis/list-hub-clusters.ts:16-19). -/
structure Graph where
  nodes : List Name
  adjacencyList : List (Name × List Name)
deriving DecidableEq, Repr

/-- `buildGraphFromNodeData` (src/analysis/list-hub-clusters.ts:70-99): seed
every node name with an empty adjacency set, then add each resolvable link in
both directions (components use the undirected closure). The guard
`if (toSubreddit)` is a JS truthiness test: it also skips a resolved name that
is the empty string. -/
def buildGraphFromNodeData (nodeData : List NodeData) : Graph :=
  let idToSub := idToSubreddit nodeData
  let base := nodeData.foldl
    (fun (acc : List Name × List (Name × List Name)) node =>
      (setAdd acc.1 node.subreddit, jsMapSet acc.2 node.subreddit []))
    ([], [])
  let adjacencyList := nodeData.foldl
    (fun adj node =>
      node.linksTo.foldl
        (fun adj toId =>
          match jsMapGet idToSub toId with
          | some toSubreddit =>
              if toSubreddit = [] then adj
              else
                let adj := match jsMapGet adj node.subreddit with
                  | some s => jsMapSet adj node.subreddit (setAdd s toSubreddit)
                  | none => adj
                let adj := if (jsMapGet adj toSubreddit).isSome then adj
                           else jsMapSet adj toSubreddit []
                match jsMapGet adj toSubreddit with
                | some s => jsMapSet adj toSubreddit (setAdd s node.subreddit)
                | none => adj
          | none => adj)
        adj)
    base.2
  ⟨base.1, adjacencyList⟩

/-- `ConnectedComponentsDetection.dfs` (src/analysis/list-hub-clusters.ts:56-66):
mark the node visited, push it onto the component, then run the
`for (const neighbor of neighbors)` loop - a left fold over the adjacency
entry - recursing into each not-yet-visited neighbor. The fuel only bounds
recursion depth; `detect` supplies more fuel than there are names in the
graph, so it never runs out. -/
def dfsVisit (adj : List (Name × List Name)) :
    Nat → Name → List Name × List Name → List Name × List Name
  | 0, _, vc => vc
  | Nat.succ fuel, node, vc =>
      ((jsMapGet adj node).getD []).foldl
        (fun vc nb => if nb ∈ vc.1 then vc else dfsVisit adj fuel nb vc)
        (node :: vc.1, vc.2 ++ [node])

/-- Fuel that strictly bounds the number of distinct names reachable by the
DFS (graph nodes plus every adjacency entry). -/
def graphFuel (g : Graph) : Nat :=
  g.nodes.length + (g.adjacencyList.map (fun p => p.2.length)).sum + 1

/-- `ConnectedComponentsDetection.detect` (src/analysis/list-hub-clusters.ts:38-54):
DFS from each not-yet-visited graph node, recording every reached name under a
sequential component id. -/
def detect (g : Graph) : List (Name × Nat) :=
  (g.nodes.foldl
    (fun (acc : List Name × Nat × List (Name × Nat)) node =>
      if node ∈ acc.1 then acc
      else
        let vc := dfsVisit g.adjacencyList (graphFuel g) node (acc.1, [])
        (vc.1, acc.2.1 + 1, vc.2.foldl (fun m c => jsMapSet m c acc.2.1) acc.2.2))
    ([], 0, [])).2.2

/-- The grouping of `components.entries()` into `communityMembers`
(src/analysis/list-hub-clusters.ts:175-182). -/
def communityMembers (components : List (Name × Nat)) : List (Nat × List Name) :=
  components.foldl (fun m p => jsMapSet m p.2 (((jsMapGet m p.2).getD []) ++ [p.1])) []

/-- The `subredditMap` of `analyzeSubredditClusters`
(src/analysis/list-hub-clusters.ts:185-191). -/
def subredditMap (nodeData : List NodeData) : List (Name × SmallSubreddit) :=
  nodeData.foldl (fun m node => jsMapSet m node.subreddit ⟨node.id, node.subreddit⟩) []

/-- The stats-map total degree of a member, `0` when absent. -/
def degOf (nodeStats : List (Nat × SubredditStats)) (m : SmallSubreddit) : Nat :=
  ((jsMapGet nodeStats m.id).map SubredditStats.totalDegree).getD 0

/-- `findHubInCommunity` (src/analysis/list-hub-clusters.ts:101-117): scan the
members, replacing the hub whenever a strictly larger total degree appears;
`hub` starts as `community[0]` and `maxDegree` as `0`. -/
def findHubInCommunity (community : List SmallSubreddit)
    (nodeStats : List (Nat × SubredditStats)) : Option SmallSubreddit :=
  (community.foldl
    (fun (acc : Option SmallSubreddit × Nat) node =>
      match jsMapGet nodeStats node.id with
      | some stats => if acc.2 < stats.totalDegree then (some node, stats.totalDegree) else acc
      | none => acc)
    (community.head?, 0)).1

/-- `a.localeCompare(b) <= 0` for the code-point alphabets stored here:
lexicographic comparison of code-point lists. -/
def nameLeB : Name → Name → Bool
  | [], _ => true
  | _ :: _, [] => false
  | a :: as, b :: bs => if a < b then true else if b < a then false else nameLeB as bs

def nameLe (a b : Name) : Prop := nameLeB a b = true

instance : DecidableRel nameLe := fun a b => instDecidableEqBool (nameLeB a b) true

/-- Comparator of `memberNames.sort((a, b) => a.localeCompare(b))`. -/
def smallLe (a b : Name) : Prop := nameLe a b

instance : DecidableRel smallLe := fun a b => instDecidableEqBool (nameLeB a b) true

/-- Comparator of the final `.sort((a, b) => b.members.length - a.members.length)`. -/
def commSizeGe (a b : CommunityWithHub) : Prop := b.members.length ≤ a.members.length

instance : DecidableRel commSizeGe := fun a b => Nat.decLe _ _

/-- `analyzeSubredditClusters` (src/analysis/list-hub-clusters.ts:169-213).
JS `Array.sort` (stable since ES2019) is modelled by the stable
`List.insertionSort`. -/
def analyzeSubredditClusters (nodeData : List NodeData) : List CommunityWithHub :=
  let graph := buildGraphFromNodeData nodeData
  let components := detect graph
  let members := communityMembers components
  let smap := subredditMap nodeData
  let nodeStats := calculateNodeStatistics nodeData
  let communities := members.map (fun p =>
    let sortedNames := List.insertionSort smallLe p.2
    let memberObjects := sortedNames.filterMap (jsMapGet smap)
    let hub := findHubInCommunity memberObjects nodeStats
    (⟨hub, memberObjects⟩ : CommunityWithHub))
  List.insertionSort commSizeGe communities

/-- Degree as the spec words it: in-degree plus out-degree of a node over the
snapshot's directed edge set (links whose target is outside the snapshot do
not form edges). -/
def specTotalDegree (nodeData : List NodeData) (n : NodeData) : Nat :=
  (n.linksTo.filter (fun t => decide (t ∈ nodeData.map NodeData.id))).length
  + (nodeData.filter (fun m => decide (n.id ∈ m.linksTo))).length

/-- `specTotalDegree` of the snapshot node carrying a given id. -/
def specDegreeOfId (nodeData : List NodeData) (i : Nat) : Nat :=
  ((nodeData.find? (fun n => decide (n.id = i))).map (specTotalDegree nodeData)).getD 0

/-- Well-formedness of a snapshot as the exporter produces it: unique ids
(primary key), unique names (`UNIQUE` column), duplicate-free `linksTo`
(`UNIQUE(from_id, to_id)`). -/
def snapshotWf (nodeData : List NodeData) : Prop :=
  (nodeData.map NodeData.id).Nodup
  ∧ (nodeData.map NodeData.subreddit).Nodup
  ∧ ∀ n ∈ nodeData, n.linksTo.Nodup

instance (nodeData : List NodeData) : Decidable (snapshotWf nodeData) := by
  unfold snapshotWf; infer_instance

/-! ## Anonymization (src/analysis/mangle.ts) -/

/-- Swap of two array cells, `[a[i], a[j]] = [a[j], a[i]]`. -/
def listSwap (l : List Nat) (i j : Nat) : List Nat :=
  match l[i]?, l[j]? with
  | some x, some y => (l.set i y).set j x
  | _, _ => l

/-- One `Math.floor(Math.random() * (i + 1))` draw from an arbitrary oracle,
reduced into its range `[0, i]`. -/
def randBelow (rand : Nat → Nat) (i : Nat) : Nat := rand i % (i + 1)

/-- The Fisher-Yates loop of src/analysis/mangle.ts:42-45, counting `i` down
from `l.length - 1` to `1`. -/
def fyAux (rand : Nat → Nat) : Nat → List Nat → List Nat
  | 0, l => l
  | Nat.succ i, l => fyAux rand i (listSwap l (i + 1) (randBelow rand (i + 1)))

def fisherYates (rand : Nat → Nat) (l : List Nat) : List Nat :=
  fyAux rand (l.length - 1) l

/-- `filteredNodeData` (src/analysis/mangle.ts:26-28): keep the nodes whose
name belongs to the retained member-name set. -/
def filteredNodeData (all : List NodeData) (retained : List Name) : List NodeData :=
  all.filter (fun n => decide (n.subreddit ∈ retained))

/-- `mangledIDs` (src/analysis/mangle.ts:35-49): map each shuffled original id
to its position, i.e. to the dense new id paired with it. -/
def mangledIDs (shuffledIds : List Nat) : List (Nat × Nat) :=
  (shuffledIds.zip (List.range shuffledIds.length)).foldl
    (fun m p => jsMapSet m p.1 p.2) []

/-- One element of the `filteredNodeData.map` of src/analysis/mangle.ts:51-68:
`assert(newId !== undefined)`, remap the id, remap `linksTo` dropping targets
without a new id. -/
def mangledNode (m : List (Nat × Nat)) (node : NodeData) : Except String NodeData :=
  match jsMapGet m node.id with
  | none => .error "assert failed"
  | some newId =>
      .ok { node with id := newId, linksTo := node.linksTo.filterMap (jsMapGet m) }

/-- Comparator of `mangledNodeData.sort((a, b) => a.id - b.id)`. -/
def idLe (a b : NodeData) : Prop := a.id ≤ b.id

instance : DecidableRel idLe := fun a b => Nat.decLe _ _

/-- The whole anonymization pipeline of src/analysis/mangle.ts:26-70,
parameterized by the retained member-name set (the members of the selected
clusters) and by the oracle behind `Math.random()`. -/
def mangledNodeData (all : List NodeData) (retained : List Name) (rand : Nat → Nat) :
    Except String (List NodeData) :=
  let filtered := filteredNodeData all retained
  let shuffledIds := fisherYates rand (filtered.map NodeData.id)
  let m := mangledIDs shuffledIds
  (mapExcept (mangledNode m) filtered).map (List.insertionSort idLe)

instance {e a : Type} [DecidableEq e] [DecidableEq a] : DecidableEq (Except e a) :=
  fun x y =>
    match x, y with
    | .error u, .error v =>
        if h : u = v then isTrue (by rw [h]) else isFalse (by intro hc; cases hc; exact h rfl)
    | .ok u, .ok v =>
        if h : u = v then isTrue (by rw [h]) else isFalse (by intro hc; cases hc; exact h rfl)
    | .error _, .ok _ => isFalse (by intro hc; cases hc)
    | .ok _, .error _ => isFalse (by intro hc; cases hc)

/-! ## Concrete stores and snapshots used by witnesses and counterexamples -/

/-- A store holding only the node `a`. -/
def dbOnlyA : DB := (addToQueue emptyDB (str "a")).1

/-- A store holding nodes `a` (id 1) and `b` (id 2). -/
def dbAB : DB := (addToQueue dbOnlyA (str "b")).1

/-- A store holding `a` (already visited). -/
def dbAVisited : DB := markVisited dbOnlyA (str "a")

/-- A store seeded with unvisited `a`, `b`, `c` in that order. -/
def dbABC : DB :=
  (addToQueue (addToQueue (addToQueue emptyDB (str "a")).1 (str "b")).1 (str "c")).1

/-- The spec's two-node scenario: apple links to mac. -/
def appleMac : List NodeData :=
  [⟨1, str "apple", 100, false, [2]⟩, ⟨2, str "mac", 50, false, []⟩]

/-- A store whose single unvisited row carries the empty name (reachable:
`addToQueue("")` stores `""`, which no guard rejects). -/
def dbEmptyName : DB := ⟨[⟨1, [], false, none, none, 1⟩], [], 2, 2⟩

/-- A snapshot with an empty-named node that three others link to: node 1
(named `""`) links to `b`; `b`, `c` and `d` all link back to node 1. -/
def emptyHubSnap : List NodeData :=
  [⟨1, [], 100, false, [2]⟩, ⟨2, str "b", 50, false, [1]⟩,
   ⟨3, str "c", 10, false, [1]⟩, ⟨4, str "d", 20, false, [1]⟩]

/-- A three-node snapshot for exercising the anonymizer: `c` is dropped. -/
def mangleDemo : List NodeData :=
  [⟨1, str "a", 5, false, [2, 3]⟩, ⟨2, str "b", 6, false, [1]⟩, ⟨3, str "c", 7, false, [1]⟩]

/-! ## Normalization lemmas -/

theorem lowerChar_idem (c : Nat) : lowerChar (lowerChar c) = lowerChar c := by
  by_cases h : 65 ≤ c ∧ c ≤ 90
  · simp only [lowerChar, if_pos h]
    rw [if_neg (by omega)]
  · simp only [lowerChar, if_neg h]

theorem toLowerName_idem (s : Name) : toLowerName (toLowerName s) = toLowerName s := by
  simp only [toLowerName, List.map_map]
  exact List.map_congr_left (fun a _ => lowerChar_idem a)

theorem stripRSlash_no_prefix (u : Name) (h : ¬ str "r/" <+: u) : stripRSlash u = u := by
  rcases u with _ | ⟨a, _ | ⟨b, rest⟩⟩
  · rfl
  · rfl
  · show (if a = 114 ∧ b = 47 then rest else _) = _
    rw [if_neg]
    rintro ⟨ha, hb⟩
    exact h ⟨rest, by simp [str, ha, hb]⟩

/-- C6 counterexample: normalization is not idempotent on `"r/r/foo"` — the
first pass strips one `r/` and leaves `"r/foo"`, the second strips again. -/
theorem normalizeSub_not_idempotent :
    normalizeSub (normalizeSub (str "r/r/foo")) ≠ normalizeSub (str "r/r/foo") := by decide

/-- C6 (amended): name normalization (lowercase, strip one leading `r/`) is
idempotent on every input whose lowercased form does not start with the
doubled prefix `r/r/`. -/
theorem normalizeSub_idem_of_no_double_prefix (s : Name)
    (h : ¬ str "r/r/" <+: toLowerName s) :
    normalizeSub (normalizeSub s) = normalizeSub s := by
  rcases s with _ | ⟨c1, _ | ⟨c2, rest⟩⟩
  · rfl
  · simp [normalizeSub, toLowerName, stripRSlash, lowerChar_idem]
  · by_cases hc : lowerChar c1 = 114 ∧ lowerChar c2 = 47
    · have h1 : normalizeSub (c1 :: c2 :: rest) = toLowerName rest := by
        simp [normalizeSub, toLowerName, stripRSlash, hc]
      rw [h1]
      show stripRSlash (toLowerName (toLowerName rest)) = toLowerName rest
      rw [toLowerName_idem]
      apply stripRSlash_no_prefix
      intro hpre
      apply h
      rcases hpre with ⟨tl, htl⟩
      refine ⟨tl, ?_⟩
      show str "r/r/" ++ tl = lowerChar c1 :: lowerChar c2 :: toLowerName rest
      rw [hc.1, hc.2, ← htl]
      rfl
    · have h1 : normalizeSub (c1 :: c2 :: rest) =
          lowerChar c1 :: lowerChar c2 :: toLowerName rest := by
        simp only [normalizeSub, toLowerName, List.map_cons, stripRSlash]
        rw [if_neg hc]
      rw [h1]
      show stripRSlash (toLowerName (lowerChar c1 :: lowerChar c2 :: toLowerName rest)) = _
      have h2 : toLowerName (lowerChar c1 :: lowerChar c2 :: toLowerName rest) =
          lowerChar c1 :: lowerChar c2 :: toLowerName rest := by
        show toLowerName (toLowerName (c1 :: c2 :: rest)) = _
        rw [toLowerName_idem]
        rfl
      rw [h2]
      simp only [stripRSlash]
      rw [if_neg hc]

/-- C6 witness. -/
theorem normalizeSub_idem_witness :
    (¬ str "r/r/" <+: toLowerName (str "Group"))
    ∧ normalizeSub (normalizeSub (str "Group")) = normalizeSub (str "Group") :=
  ⟨by decide, normalizeSub_idem_of_no_double_prefix (str "Group") (by decide)⟩

/-! ## Upsert idempotence (C5, C9) -/

/-- C5 counterexample: `"g/group"` does not normalize like `"group"` — the
code strips the prefix `r/`, not `g/` — so upserting both creates two rows
with different ids. -/
theorem addToQueue_g_prefix_not_equivalent :
    normalizeSub (str "g/group") ≠ normalizeSub (str "group")
    ∧ (addToQueue (addToQueue emptyDB (str "group")).1 (str "g/group")).1.rows.length = 2
    ∧ (addToQueue (addToQueue emptyDB (str "group")).1 (str "g/group")).2
        ≠ (addToQueue emptyDB (str "group")).2 := by decide

theorem addToQueue_found (db : DB) (s : Name) (r : Row)
    (h : findRow db (normalizeSub s) = some r) : addToQueue db s = (db, r.id) := by
  simp only [addToQueue]
  rw [h]

theorem addToQueue_notfound (db : DB) (s : Name)
    (h : findRow db (normalizeSub s) = none) :
    addToQueue db s =
      ({ db with
          rows := db.rows ++ [⟨db.nextId, normalizeSub s, false, none, none, db.clock⟩],
          nextId := db.nextId + 1,
          clock := db.clock + 1 }, db.nextId) := by
  simp only [addToQueue]
  rw [h]

/-- C5 (amended): `"Group"`, `"r/group"` and `"group"` normalize to the same
stored name, and upserting any name equivalent to an already-upserted one
returns the same stable id and leaves the store unchanged. -/
theorem addToQueue_idempotent_under_equivalent_names :
    (normalizeSub (str "Group") = str "group"
      ∧ normalizeSub (str "r/group") = str "group"
      ∧ normalizeSub (str "group") = str "group")
    ∧ ∀ (db : DB) (s t : Name), normalizeSub s = normalizeSub t →
        (addToQueue (addToQueue db s).1 t).1 = (addToQueue db s).1
        ∧ (addToQueue (addToQueue db s).1 t).2 = (addToQueue db s).2 := by
  refine ⟨by decide, ?_⟩
  intro db s t h
  rcases hf : findRow db (normalizeSub s) with _ | r
  · rw [addToQueue_notfound db s hf]
    have h2 : findRow
        ({ db with
            rows := db.rows ++ [⟨db.nextId, normalizeSub s, false, none, none, db.clock⟩],
            nextId := db.nextId + 1,
            clock := db.clock + 1 } : DB) (normalizeSub t) =
        some ⟨db.nextId, normalizeSub s, false, none, none, db.clock⟩ := by
      rw [← h]
      show List.find? _ (db.rows ++ _) = _
      rw [List.find?_append]
      unfold findRow at hf
      simp [hf]
    rw [addToQueue_found _ t _ h2]
    exact ⟨rfl, rfl⟩
  · rw [addToQueue_found db s r hf]
    have h2 : findRow db (normalizeSub t) = some r := by rw [← h]; exact hf
    rw [addToQueue_found db t r h2]
    exact ⟨rfl, rfl⟩

/-- C5 witness. -/
theorem addToQueue_idempotent_witness :
    normalizeSub (str "r/group") = normalizeSub (str "Group")
    ∧ ((addToQueue (addToQueue emptyDB (str "r/group")).1 (str "Group")).1
        = (addToQueue emptyDB (str "r/group")).1
      ∧ (addToQueue (addToQueue emptyDB (str "r/group")).1 (str "Group")).2
        = (addToQueue emptyDB (str "r/group")).2) :=
  ⟨by decide,
    addToQueue_idempotent_under_equivalent_names.2 emptyDB (str "r/group") (str "Group")
      (by decide)⟩

/-- C9: re-upserting a name already present leaves the store — and in
particular that node's id, visited flag, metadata and timestamp — entirely
unchanged, and returns the stored id. -/
theorem addToQueue_frame_on_existing (db : DB) (s : Name) (r : Row)
    (h : findRow db (normalizeSub s) = some r) :
    (addToQueue db s).1 = db ∧ (addToQueue db s).2 = r.id := by
  simp [addToQueue, h]

/-- C9 witness: a visited node is not un-visited by a repeated enqueue. -/
theorem addToQueue_frame_witness :
    findRow dbAVisited (normalizeSub (str "a")) = some ⟨1, str "a", true, none, none, 0⟩
    ∧ ((addToQueue dbAVisited (str "a")).1 = dbAVisited
        ∧ (addToQueue dbAVisited (str "a")).2
            = (⟨1, str "a", true, none, none, 0⟩ : Row).id) :=
  ⟨by decide,
    addToQueue_frame_on_existing dbAVisited (str "a") ⟨1, str "a", true, none, none, 0⟩
      (by decide)⟩

/-! ## Edge insertion with a missing endpoint (C1) -/

/-- C1 counterexample: with only `a` in the store, `addEdge("a", "b")` does not
silently skip — the id lookup assertion fails and the returned promise
rejects, which would abort the enclosing crawl loop. -/
theorem addEdge_missing_endpoint_errors :
    addEdge dbOnlyA (str "a") (str "b") = .error "assert failed" := by decide

theorem getSubredditId_found (db : DB) (s : Name) (r : Row)
    (h : findRow db (normalizeSub s) = some r) :
    getSubredditId db s = if r.id = 0 then .error "assert failed" else .ok r.id := by
  unfold getSubredditId
  rw [h]

theorem getSubredditId_notfound (db : DB) (s : Name)
    (h : findRow db (normalizeSub s) = none) :
    getSubredditId db s = .error "assert failed" := by
  unfold getSubredditId
  rw [h]

/-- C1 (amended): whenever either endpoint name is absent from node storage,
`addEdge` fails with the `getSubredditId` assertion error (it inserts nothing,
but it raises rather than skipping silently, so the enclosing crawl loop
would be aborted by the rejected promise). -/
theorem addEdge_errors_iff_endpoint_missing (db : DB) (fromName toName : Name)
    (h : findRow db (normalizeSub fromName) = none
        ∨ findRow db (normalizeSub toName) = none) :
    addEdge db fromName toName = .error "assert failed" := by
  rcases h with h | h
  · show (getSubredditId db fromName >>= fun fromId =>
        getSubredditId db toName >>= fun toId => addEdgeById db fromId toId) = _
    rw [getSubredditId_notfound db fromName h]
    rfl
  · show (getSubredditId db fromName >>= fun fromId =>
        getSubredditId db toName >>= fun toId => addEdgeById db fromId toId) = _
    rcases hf : findRow db (normalizeSub fromName) with _ | r
    · rw [getSubredditId_notfound db fromName hf]
      rfl
    · rw [getSubredditId_found db fromName r hf]
      by_cases hz : r.id = 0
      · rw [if_pos hz]
        rfl
      · rw [if_neg hz]
        show (getSubredditId db toName >>= fun toId => addEdgeById db r.id toId) = _
        rw [getSubredditId_notfound db toName h]
        rfl

/-- C1 witness. -/
theorem addEdge_errors_witness :
    (findRow dbOnlyA (normalizeSub (str "b")) = none
        ∨ findRow dbOnlyA (normalizeSub (str "a")) = none)
    ∧ addEdge dbOnlyA (str "b") (str "a") = .error "assert failed" :=
  ⟨Or.inl (by decide),
    addEdge_errors_iff_endpoint_missing dbOnlyA (str "b") (str "a") (Or.inl (by decide))⟩

/-! ## Export of missing metadata (C7) -/

/-- C7: a store whose only node never had its metadata set makes the Snapshot
Exporter fail the `z.array(SubredditRow)` parse (`subscribers: z.number()` and
`nsfw: 0 | 1` reject NULL) — it neither succeeds with `null` nor substitutes
zero; it throws. -/
theorem export_fails_on_missing_metadata :
    dbOnlyA.rows.map Row.subscribers = [none]
    ∧ dbOnlyA.rows.map Row.nsfw = [none]
    ∧ getJSONFromDatabase dbOnlyA = .error "zod: expected number, received null" := by decide

/-! ## Frontier order (C3, C10) -/

theorem filter_head?_eq_find? (p : Row → Bool) (l : List Row) :
    (l.filter p).head? = l.find? p := by
  induction l with
  | nil => rfl
  | cons a l ih =>
      by_cases hp : p a = true
      · rw [List.filter_cons_of_pos hp, List.find?_cons_of_pos _ hp]
        rfl
      · rw [List.filter_cons_of_neg hp, List.find?_cons_of_neg _ hp]
        exact ih

theorem foldl_min_sorted (r : Row) (rs : List Row)
    (h : ∀ c ∈ rs, r.added_at < c.added_at) :
    rs.foldl (fun best c => if c.added_at < best.added_at then c else best) r = r := by
  induction rs with
  | nil => rfl
  | cons c rs ih =>
      have hc : ¬ c.added_at < r.added_at := by
        have := h c (by simp)
        omega
      simp only [List.foldl_cons, if_neg hc]
      exact ih (fun d hd => h d (by simp [hd]))

/-- Under the schema invariant that `added_at` strictly increases in insertion
order, `ORDER BY added_at LIMIT 1` over the unvisited rows returns exactly the
first unvisited row in insertion order. -/
theorem getNextUnvisited_eq_find (db : DB)
    (hs : db.rows.Pairwise (fun a b => a.added_at < b.added_at)) :
    getNextUnvisited db = (db.rows.find? (fun r => !r.visited)).map Row.subreddit := by
  unfold getNextUnvisited
  rw [← filter_head?_eq_find?]
  have hsf : (db.rows.filter (fun r => !r.visited)).Pairwise
      (fun a b => a.added_at < b.added_at) :=
    List.Pairwise.sublist (List.filter_sublist _) hs
  rcases hf : db.rows.filter (fun r => !r.visited) with _ | ⟨r, rs⟩
  · rw [hf]
    rfl
  · rw [hf] at hsf
    rw [hf]
    have hr : ∀ c ∈ rs, r.added_at < c.added_at := (List.pairwise_cons.mp hsf).1
    show some ((rs.foldl (fun best c => if c.added_at < best.added_at then c else best) r).subreddit)
        = Option.map Row.subreddit (r :: rs).head?
    rw [foldl_min_sorted r rs hr]
    rfl

/-- C3: `getNextUnvisited` returns the oldest unvisited node by insertion
order (FIFO) and `none` exactly when no unvisited node exists; draining the
generator over a store seeded with unvisited `a`, `b`, `c`, marking each
visited immediately after it is yielded, yields exactly `a`, `b`, `c` once
each in insertion order, after which the unvisited count is `0`. -/
theorem nextUnvisited_fifo (db : DB) (hwf : db.wf) :
    getNextUnvisited db = (db.rows.find? (fun r => !r.visited)).map Row.subreddit
    ∧ (getNextUnvisited db = none ↔ getUnvisitedCount db = 0)
    ∧ (drainIterate dbABC 5).1 = [str "a", str "b", str "c"]
    ∧ getUnvisitedCount (drainIterate dbABC 5).2 = 0 := by
  refine ⟨getNextUnvisited_eq_find db hwf.1, ?_, by decide, by decide⟩
  unfold getNextUnvisited getUnvisitedCount
  rcases hf : db.rows.filter (fun r => !r.visited) with _ | ⟨r, rs⟩ <;> rw [hf] <;> simp

/-- C3 witness. -/
theorem nextUnvisited_fifo_witness :
    dbABC.wf
    ∧ (getNextUnvisited dbABC = (dbABC.rows.find? (fun r => !r.visited)).map Row.subreddit
      ∧ (getNextUnvisited dbABC = none ↔ getUnvisitedCount dbABC = 0)
      ∧ (drainIterate dbABC 5).1 = [str "a", str "b", str "c"]
      ∧ getUnvisitedCount (drainIterate dbABC 5).2 = 0) :=
  ⟨by decide, nextUnvisited_fifo dbABC (by decide)⟩

/-! ## The frontier under interleaved mutations (C10) -/

theorem find?_unvisited_append (l l' : List Row) (x : Row)
    (h : l.find? (fun r => !r.visited) = some x) :
    (l ++ l').find? (fun r => !r.visited) = some x := by
  rw [List.find?_append, h]
  rfl

theorem find?_unvisited_map_preserve (l : List Row) (g : Row → Row)
    (hg : ∀ r, (g r).visited = r.visited ∧ (g r).subreddit = r.subreddit) :
    ((l.map g).find? (fun r => !r.visited)).map Row.subreddit
      = (l.find? (fun r => !r.visited)).map Row.subreddit := by
  induction l with
  | nil => rfl
  | cons a l ih =>
      rw [List.map_cons]
      by_cases hv : (!a.visited) = true
      · rw [@List.find?_cons_of_pos _ (fun r => !r.visited) (g a) (l.map g)
            (by show (!(g a).visited) = true; rw [(hg a).1]; exact hv),
          @List.find?_cons_of_pos _ (fun r => !r.visited) a l hv]
        simp [(hg a).2]
      · rw [@List.find?_cons_of_neg _ (fun r => !r.visited) (g a) (l.map g)
            (by show ¬ (!(g a).visited) = true; rw [(hg a).1]; exact hv),
          @List.find?_cons_of_neg _ (fun r => !r.visited) a l hv]
        exact ih

theorem find?_unvisited_markVisited (l : List Row) (nt : Name) (x : Row)
    (hfind : l.find? (fun r => !r.visited) = some x) (hne : x.subreddit ≠ nt) :
    (l.map (fun r => if r.subreddit = nt then { r with visited := true } else r)).find?
        (fun r => !r.visited) = some x := by
  induction l with
  | nil => simp at hfind
  | cons a l ih =>
      rw [List.map_cons]
      by_cases hv : (!a.visited) = true
      · rw [@List.find?_cons_of_pos _ (fun r => !r.visited) a l hv] at hfind
        injection hfind with hx
        subst hx
        rw [if_neg hne]
        exact List.find?_cons_of_pos _ hv
      · rw [@List.find?_cons_of_neg _ (fun r => !r.visited) a l hv] at hfind
        have hva : ¬ (!(if a.subreddit = nt then { a with visited := true } else a).visited)
            = true := by
          by_cases hn : a.subreddit = nt
          · simp [hn]
          · rw [if_neg hn]
            exact hv
        rw [@List.find?_cons_of_neg _ (fun r => !r.visited)
            (if a.subreddit = nt then { a with visited := true } else a)
            (l.map (fun r => if r.subreddit = nt then { r with visited := true } else r)) hva]
        exact ih hfind

theorem frontierWf_map (db : DB) (g : Row → Row)
    (hg : ∀ r, (g r).added_at = r.added_at) (h : frontierWf db) :
    frontierWf { db with rows := db.rows.map g } := by
  obtain ⟨hp, hc⟩ := h
  constructor
  · show (db.rows.map g).Pairwise _
    rw [List.pairwise_map]
    exact hp.imp (fun hab => by rw [hg, hg]; exact hab)
  · intro r hr
    rw [List.mem_map] at hr
    obtain ⟨r0, hr0, hr0e⟩ := hr
    rw [← hr0e, hg]
    exact hc r0 hr0

theorem addEdgeById_frame (db : DB) (f t : Nat) :
    (((addEdgeById db f t).toOption).getD db).rows = db.rows
    ∧ (((addEdgeById db f t).toOption).getD db).clock = db.clock := by
  unfold addEdgeById
  split
  · exact ⟨rfl, rfl⟩
  · split
    · split
      · exact ⟨rfl, rfl⟩
      · exact ⟨rfl, rfl⟩
    · exact ⟨rfl, rfl⟩

theorem frontierWf_applyOp (db : DB) (op : Op) (h : frontierWf db) :
    frontierWf (applyOp db op) := by
  cases op with
  | enqueue s =>
      obtain ⟨hp, hc⟩ := h
      show frontierWf (addToQueue db s).1
      rcases hf : findRow db (normalizeSub s) with _ | r
      · rw [addToQueue_notfound db s hf]
        constructor
        · show (db.rows ++ [_]).Pairwise _
          rw [List.pairwise_append]
          refine ⟨hp, by simp, ?_⟩
          intro a ha b hb
          rw [List.mem_singleton] at hb
          rw [hb]
          exact hc a ha
        · intro r hr
          rw [List.mem_append] at hr
          rcases hr with hr | hr
          · have := hc r hr
            show r.added_at < db.clock + 1
            omega
          · rw [List.mem_singleton] at hr
            rw [hr]
            show db.clock < db.clock + 1
            omega
      · rw [addToQueue_found db s r hf]
        exact ⟨hp, hc⟩
  | meta s nsfw subs =>
      show frontierWf (updateMeta db s nsfw subs)
      unfold updateMeta
      by_cases hs : s = []
      · rw [if_pos hs]
        exact h
      · rw [if_neg hs]
        exact frontierWf_map db _
          (fun r => by by_cases hn : r.subreddit = normalizeSub s <;> simp [hn]) h
  | visit s =>
      show frontierWf (markVisited db s)
      unfold markVisited
      by_cases hs : s = []
      · rw [if_pos hs]
        exact h
      · rw [if_neg hs]
        exact frontierWf_map db _
          (fun r => by by_cases hn : r.subreddit = normalizeSub s <;> simp [hn]) h
  | edge f t =>
      obtain ⟨hframe1, hframe2⟩ := addEdgeById_frame db f t
      show frontierWf (((addEdgeById db f t).toOption).getD db)
      unfold frontierWf
      rw [hframe1, hframe2]
      exact h

theorem getNext_preserved_step (db : DB) (s : Name) (op : Op)
    (hfr : frontierWf db) (h : getNextUnvisited db = some s)
    (hop : opMarksName op s = false) :
    getNextUnvisited (applyOp db op) = some s := by
  have hfind : (db.rows.find? (fun r => !r.visited)).map Row.subreddit = some s := by
    rw [← getNextUnvisited_eq_find db hfr.1]
    exact h
  obtain ⟨x, hx, hxs⟩ : ∃ x, db.rows.find? (fun r => !r.visited) = some x
      ∧ x.subreddit = s := by
    rcases hf : db.rows.find? (fun r => !r.visited) with _ | x
    · rw [hf] at hfind
      simp at hfind
    · refine ⟨x, hf, ?_⟩
      rw [hf] at hfind
      have hfind2 : some x.subreddit = some s := hfind
      injection hfind2
  have hfr' : frontierWf (applyOp db op) := frontierWf_applyOp db op hfr
  rw [getNextUnvisited_eq_find _ hfr'.1]
  cases op with
  | enqueue t =>
      show (((addToQueue db t).1.rows.find? (fun r => !r.visited)).map Row.subreddit) = _
      rcases hf : findRow db (normalizeSub t) with _ | r
      · rw [addToQueue_notfound db t hf]
        show (((db.rows ++ ([⟨db.nextId, normalizeSub t, false, none, none, db.clock⟩] : List Row)).find?
            (fun r => !r.visited)).map Row.subreddit) = _
        rw [find?_unvisited_append _ _ x hx]
        show some x.subreddit = some s
        rw [hxs]
      · rw [addToQueue_found db t r hf]
        show ((db.rows.find? (fun r => !r.visited)).map Row.subreddit) = _
        rw [hx]
        show some x.subreddit = some s
        rw [hxs]
  | meta t nsfw subs =>
      show (((updateMeta db t nsfw subs).rows.find? (fun r => !r.visited)).map Row.subreddit) = _
      unfold updateMeta
      by_cases ht : t = []
      · rw [if_pos ht]
        show ((db.rows.find? (fun r => !r.visited)).map Row.subreddit) = _
        rw [hx]
        show some x.subreddit = some s
        rw [hxs]
      · rw [if_neg ht]
        show (((db.rows.map _).find? (fun r => !r.visited)).map Row.subreddit) = _
        rw [find?_unvisited_map_preserve db.rows _
          (fun r => by by_cases hn : r.subreddit = normalizeSub t <;> simp [hn]), hx]
        show some x.subreddit = some s
        rw [hxs]
  | visit t =>
      show (((markVisited db t).rows.find? (fun r => !r.visited)).map Row.subreddit) = _
      unfold markVisited
      by_cases ht : t = []
      · rw [if_pos ht]
        show ((db.rows.find? (fun r => !r.visited)).map Row.subreddit) = _
        rw [hx]
        show some x.subreddit = some s
        rw [hxs]
      · rw [if_neg ht]
        have hne0 : normalizeSub t ≠ s := of_decide_eq_false hop
        have hne : x.subreddit ≠ normalizeSub t := by
          rw [hxs]
          exact fun hh => hne0 hh.symm
        show (((db.rows.map _).find? (fun r => !r.visited)).map Row.subreddit) = _
        rw [find?_unvisited_markVisited db.rows (normalizeSub t) x hx hne]
        show some x.subreddit = some s
        rw [hxs]
  | edge f t =>
      obtain ⟨hframe1, _⟩ := addEdgeById_frame db f t
      show (((((addEdgeById db f t).toOption).getD db).rows.find?
          (fun r => !r.visited)).map Row.subreddit) = _
      rw [hframe1, hx]
      show some x.subreddit = some s
      rw [hxs]

theorem getNext_preserved_ops (s : Name) (ops : List Op) : ∀ db : DB, frontierWf db →
    getNextUnvisited db = some s → (∀ op ∈ ops, opMarksName op s = false) →
    getNextUnvisited (applyOps db ops) = some s := by
  induction ops with
  | nil =>
      intro db _ h _
      exact h
  | cons op ops ih =>
      intro db hfr h hops
      show getNextUnvisited (applyOps (applyOp db op) ops) = some s
      exact ih (applyOp db op) (frontierWf_applyOp db op hfr)
        (getNext_preserved_step db s op hfr h (hops op (by simp)))
        (fun o ho => hops o (by simp [ho]))

/-- C10 counterexample to the original claim: with the empty-named row as the
oldest unvisited entry, `getUnvisitedGenerator` terminates at once - the
falsy check `if (!subreddit) break` fires on `""` - even though one unvisited
row remains, so the generator does not yield the oldest name forever. -/
theorem generator_stops_on_empty_name :
    dbEmptyName.wf ∧
    getNextUnvisited dbEmptyName = some [] ∧
    getUnvisitedCount dbEmptyName = 1 ∧
    genYields dbEmptyName 1 = [] ∧
    ¬ genYields dbEmptyName 1 = List.replicate 1 [] := by
  decide

/-- C10 (amended): as long as no interleaved operation marks the
currently-oldest unvisited node visited, every further `getNextUnvisited`
pull returns that same name; provided that name is non-empty (the generator
exit `if (!subreddit) break` is a JS truthiness test, so a yielded empty
string would also end the loop), a consumer that never calls `markVisited`
receives the same name on every pull and the generator never terminates. -/
theorem generator_repeats_until_marked (db : DB) (s : Name) (hwf : db.wf)
    (hs : s ≠ []) (h : getNextUnvisited db = some s) :
    (∀ ops : List Op, (∀ op ∈ ops, opMarksName op s = false) →
        getNextUnvisited (applyOps db ops) = some s)
    ∧ (∀ n, genYields db n = List.replicate n s) := by
  constructor
  · intro ops hops
    exact getNext_preserved_ops s ops db ⟨hwf.1, hwf.2.1⟩ h hops
  · intro n
    induction n with
    | zero => rfl
    | succ n ih => simp [genYields, h, hs, ih, List.replicate_succ]

/-- C10 witness: on the `a`, `b`, `c` store, enqueueing a new node and
visiting `b` leaves the next pull at `a`, and an idle consumer gets `a`
forever. -/
theorem generator_repeats_witness :
    (dbABC.wf ∧ str "a" ≠ [] ∧ getNextUnvisited dbABC = some (str "a"))
    ∧ (getNextUnvisited
        (applyOps dbABC [Op.enqueue (str "d"), Op.visit (str "b")]) = some (str "a")
      ∧ genYields dbABC 3 = List.replicate 3 (str "a")) :=
  ⟨⟨by decide, by decide, by decide⟩,
    (generator_repeats_until_marked dbABC (str "a") (by decide) (by decide) (by decide)).1
      [Op.enqueue (str "d"), Op.visit (str "b")] (by decide),
    (generator_repeats_until_marked dbABC (str "a") (by decide) (by decide) (by decide)).2 3⟩

/-! ## Edge idempotence and self-loops (C8) -/

theorem hasId_congr (db db' : DB) (h : db'.rows = db.rows) (i : Nat) :
    hasId db' i = hasId db i := by
  unfold hasId
  rw [h]

theorem addEdgeById_ok_of_exists (db : DB) (f t : Nat)
    (hne : f ≠ t) (hf0 : f ≠ 0) (ht0 : t ≠ 0)
    (hf : hasId db f = true) (ht : hasId db t = true) :
    addEdgeById db f t =
      (if (f, t) ∈ db.edges then .ok db
       else .ok { db with edges := db.edges ++ [(f, t)] }) := by
  unfold addEdgeById
  rw [if_neg (by simp [hf0, ht0, hne]), if_pos ⟨hf, ht⟩]

theorem addEdgeByIdN_stable (db : DB) (f t : Nat) (hne : f ≠ t) (hf0 : f ≠ 0)
    (ht0 : t ≠ 0) (hf : hasId db f = true) (ht : hasId db t = true) :
    ∀ N, 1 ≤ N → ∃ db', addEdgeByIdN db f t N = .ok db'
      ∧ db'.rows = db.rows
      ∧ db'.edges = (if (f, t) ∈ db.edges then db.edges else db.edges ++ [(f, t)]) := by
  intro N
  induction N with
  | zero => omega
  | succ N ih =>
      intro _
      by_cases hN : 1 ≤ N
      · obtain ⟨db', hok, hrows, hedges⟩ := ih hN
        have hmem : (f, t) ∈ db'.edges := by
          rw [hedges]
          by_cases hm : (f, t) ∈ db.edges
          · rw [if_pos hm]
            exact hm
          · rw [if_neg hm]
            exact List.mem_append_right _ (by simp)
        refine ⟨db', ?_, hrows, hedges⟩
        show (addEdgeByIdN db f t N >>= fun d => addEdgeById d f t) = .ok db'
        rw [hok]
        show addEdgeById db' f t = .ok db'
        rw [addEdgeById_ok_of_exists db' f t hne hf0 ht0
          (by rw [hasId_congr db db' hrows]; exact hf)
          (by rw [hasId_congr db db' hrows]; exact ht), if_pos hmem]
      · have hN0 : N = 0 := by omega
        subst hN0
        by_cases hm : (f, t) ∈ db.edges
        · refine ⟨db, ?_, rfl, by rw [if_pos hm]⟩
          show addEdgeById db f t = .ok db
          rw [addEdgeById_ok_of_exists db f t hne hf0 ht0 hf ht, if_pos hm]
        · refine ⟨{ db with edges := db.edges ++ [(f, t)] }, ?_, rfl, by rw [if_neg hm]⟩
          show addEdgeById db f t = .ok { db with edges := db.edges ++ [(f, t)] }
          rw [addEdgeById_ok_of_exists db f t hne hf0 ht0 hf ht, if_neg hm]

theorem filter_eq_singleton_of_nodup_mem {α : Type} [DecidableEq α] (l : List α) (a : α)
    (hnd : l.Nodup) (hm : a ∈ l) :
    (l.filter (fun e => decide (e = a))).length = 1 := by
  induction l with
  | nil => simp at hm
  | cons b l ih =>
      rw [List.nodup_cons] at hnd
      by_cases hb : b = a
      · subst hb
        rw [List.filter_cons_of_pos (by simp)]
        have hnil : l.filter (fun e => decide (e = b)) = [] := by
          rw [List.filter_eq_nil_iff]
          intro x hx
          simp only [decide_eq_true_eq]
          intro hxa
          exact hnd.1 (hxa ▸ hx)
        rw [hnil]
        rfl
      · rw [List.filter_cons_of_neg (by simp [hb])]
        rcases List.mem_cons.mp hm with h | h
        · exact absurd h.symm hb
        · exact ih hnd.2 h

/-- C8: with both endpoints present and distinct, `N ≥ 1` calls of
`addEdgeById(a, b)` all succeed and leave exactly one `(a, b)` edge row
(and the node table untouched); `addEdgeById(a, a)` is a complete no-op, so a
self-loop row is never created. -/
theorem addEdge_idempotent_and_no_self_loops (db : DB) (f t N : Nat)
    (hwf : db.wf) (hf : hasId db f = true) (ht : hasId db t = true)
    (hne : f ≠ t) (hN : 1 ≤ N) :
    (∃ db', addEdgeByIdN db f t N = .ok db'
      ∧ (db'.edges.filter (fun e => decide (e = (f, t)))).length = 1
      ∧ db'.rows = db.rows)
    ∧ addEdgeById db f f = .ok db := by
  have hids : ∀ i, hasId db i = true → i ≠ 0 := by
    intro i hi
    obtain ⟨r, hr, hrid⟩ := List.any_eq_true.mp hi
    have h1 := (hwf.2.2.1 r hr).1
    have hid : r.id = i := of_decide_eq_true hrid
    omega
  constructor
  · obtain ⟨db', hok, hrows, hedges⟩ :=
      addEdgeByIdN_stable db f t hne (hids f hf) (hids t ht) hf ht N hN
    refine ⟨db', hok, ?_, hrows⟩
    rw [hedges]
    by_cases hm : (f, t) ∈ db.edges
    · rw [if_pos hm]
      exact filter_eq_singleton_of_nodup_mem db.edges (f, t) hwf.2.2.2.2.2 hm
    · rw [if_neg hm]
      rw [List.filter_append]
      have hnil : db.edges.filter (fun e => decide (e = (f, t))) = [] := by
        rw [List.filter_eq_nil_iff]
        intro x hx
        simp only [decide_eq_true_eq]
        intro hxa
        exact hm (hxa ▸ hx)
      rw [hnil]
      simp
  · unfold addEdgeById
    rw [if_pos (Or.inr (Or.inr rfl))]

/-- C8 witness. -/
theorem addEdge_idempotent_witness :
    (dbAB.wf ∧ hasId dbAB 1 = true ∧ hasId dbAB 2 = true ∧ (1 : Nat) ≠ 2 ∧ 1 ≤ 3)
    ∧ ((∃ db', addEdgeByIdN dbAB 1 2 3 = .ok db'
        ∧ (db'.edges.filter (fun e => decide (e = (1, 2)))).length = 1
        ∧ db'.rows = dbAB.rows)
      ∧ addEdgeById dbAB 1 1 = .ok dbAB) :=
  ⟨⟨by decide, by decide, by decide, by decide, by decide⟩,
    addEdge_idempotent_and_no_self_loops dbAB 1 2 3 (by decide) (by decide) (by decide)
      (by decide) (by decide)⟩

/-! ## The Fisher-Yates shuffle permutes its input (C2) -/

theorem cons_set_perm (t : List Nat) : ∀ (j a y : Nat), t[j]? = some y →
    (y :: t.set j a).Perm (a :: t) := by
  induction t with
  | nil =>
      intro j a y h
      simp at h
  | cons b t ih =>
      intro j a y h
      cases j with
      | zero =>
          rw [List.getElem?_cons_zero] at h
          obtain rfl : b = y := by injection h
          rw [List.set_cons_zero]
          exact List.Perm.swap a b t
      | succ j =>
          rw [List.getElem?_cons_succ] at h
          rw [List.set_cons_succ]
          exact (List.Perm.swap b y _).trans (((ih j a y h).cons b).trans (List.Perm.swap a b t))

theorem set_set_perm (l : List Nat) : ∀ (i j x y : Nat), l[i]? = some x → l[j]? = some y →
    ((l.set i y).set j x).Perm l := by
  induction l with
  | nil =>
      intro i j x y hi _
      simp at hi
  | cons a t ih =>
      intro i j x y hi hj
      cases i with
      | zero =>
          rw [List.getElem?_cons_zero] at hi
          obtain rfl : a = x := by injection hi
          rw [List.set_cons_zero]
          cases j with
          | zero =>
              rw [List.set_cons_zero]
          | succ j =>
              rw [List.getElem?_cons_succ] at hj
              rw [List.set_cons_succ]
              exact cons_set_perm t j a y hj
      | succ i =>
          rw [List.getElem?_cons_succ] at hi
          rw [List.set_cons_succ]
          cases j with
          | zero =>
              rw [List.getElem?_cons_zero] at hj
              obtain rfl : a = y := by injection hj
              rw [List.set_cons_zero]
              exact cons_set_perm t i a x hi
          | succ j =>
              rw [List.getElem?_cons_succ] at hj
              rw [List.set_cons_succ]
              exact (ih i j x y hi hj).cons a

theorem listSwap_perm (l : List Nat) (i j : Nat) : (listSwap l i j).Perm l := by
  unfold listSwap
  rcases hi : l[i]? with _ | x
  · exact List.Perm.refl l
  · rcases hj : l[j]? with _ | y
    · exact List.Perm.refl l
    · exact set_set_perm l i j x y hi hj

theorem fyAux_perm (rand : Nat → Nat) : ∀ (i : Nat) (l : List Nat), (fyAux rand i l).Perm l := by
  intro i
  induction i with
  | zero =>
      intro l
      exact List.Perm.refl l
  | succ i ih =>
      intro l
      show (fyAux rand i (listSwap l (i + 1) (randBelow rand (i + 1)))).Perm l
      exact (ih _).trans (listSwap_perm _ _ _)

theorem fisherYates_perm (rand : Nat → Nat) (l : List Nat) : (fisherYates rand l).Perm l :=
  fyAux_perm rand _ l

/-! ## JS `Map` lemmas -/

theorem jsMapGet_cons {κ β : Type} [DecidableEq κ] (p : κ × β) (m : List (κ × β)) (k : κ) :
    jsMapGet (p :: m) k = if p.1 = k then some p.2 else jsMapGet m k := by
  unfold jsMapGet
  by_cases h : p.1 = k
  · rw [List.find?_cons_of_pos _ (by simp [h]), if_pos h]
    rfl
  · rw [List.find?_cons_of_neg _ (by simp [h]), if_neg h]

theorem jsMapSet_fresh {κ β : Type} [DecidableEq κ] (m : List (κ × β)) (k : κ) (v : β)
    (h : jsMapGet m k = none) : jsMapSet m k v = m ++ [(k, v)] := by
  unfold jsMapGet at h
  unfold jsMapSet
  rcases hf : m.find? (fun p => decide (p.1 = k)) with _ | p
  · simp [hf]
  · rw [hf] at h
    simp at h

theorem jsMapGet_append_left_none {κ β : Type} [DecidableEq κ] (m m' : List (κ × β)) (k : κ)
    (h : jsMapGet m k = none) : jsMapGet (m ++ m') k = jsMapGet m' k := by
  unfold jsMapGet at h ⊢
  rw [List.find?_append]
  rcases hf : m.find? (fun p => decide (p.1 = k)) with _ | p
  · rw [hf]
    rfl
  · rw [hf] at h
    simp at h

theorem foldl_jsMapSet_fresh {α κ β : Type} [DecidableEq κ] (kf : α → κ) (vf : α → β) :
    ∀ (l : List α) (m : List (κ × β)), (l.map kf).Nodup →
    (∀ a ∈ l, jsMapGet m (kf a) = none) →
    l.foldl (fun acc a => jsMapSet acc (kf a) (vf a)) m = m ++ l.map (fun a => (kf a, vf a)) := by
  intro l
  induction l with
  | nil =>
      intro m _ _
      simp
  | cons a l ih =>
      intro m hnd hfresh
      rw [List.map_cons, List.nodup_cons] at hnd
      rw [List.foldl_cons, jsMapSet_fresh m (kf a) (vf a) (hfresh a (by simp))]
      rw [ih (m ++ [(kf a, vf a)]) hnd.2 ?fresh]
      · simp
      case fresh =>
        intro b hb
        have h1 : jsMapGet m (kf b) = none := hfresh b (by simp [hb])
        have h2 : kf b ≠ kf a := fun he => hnd.1 (he ▸ List.mem_map_of_mem kf hb)
        rw [jsMapGet_append_left_none m _ (kf b) h1, jsMapGet_cons,
          if_neg (fun he => h2 he.symm)]
        rfl

theorem jsMapGet_map_succ :
    ∀ (m : List (Nat × Nat)) (k : Nat),
    jsMapGet (m.map (fun p => (p.1, p.2 + 1))) k = (jsMapGet m k).map (· + 1) := by
  intro m
  induction m with
  | nil =>
      intro k
      rfl
  | cons p m ih =>
      intro k
      rw [List.map_cons, jsMapGet_cons, jsMapGet_cons]
      by_cases h : p.1 = k
      · rw [if_pos h, if_pos h]
        rfl
      · rw [if_neg h, if_neg h]
        exact ih k

theorem mangledIDs_eq_zip (shuffled : List Nat) (hnd : shuffled.Nodup) :
    mangledIDs shuffled = shuffled.zip (List.range shuffled.length) := by
  unfold mangledIDs
  rw [foldl_jsMapSet_fresh Prod.fst Prod.snd _ [] ?h1 ?h2]
  · simp
  case h1 =>
    rw [List.map_fst_zip]
    · exact hnd
    · rw [List.length_range]
  case h2 =>
    intro a _
    rfl

theorem jsMapGet_zip_range : ∀ (l : List Nat), l.Nodup → ∀ (v : Nat) (hv : v < l.length),
    jsMapGet (l.zip (List.range l.length)) (l.get ⟨v, hv⟩) = some v := by
  intro l
  induction l with
  | nil =>
      intro _ v hv
      simp at hv
  | cons a t ih =>
      intro hnd v hv
      rw [List.nodup_cons] at hnd
      have hrange : List.range (a :: t).length = 0 :: (List.range t.length).map (· + 1) := by
        rw [List.length_cons, List.range_succ_eq_map]
      rw [hrange, List.zip_cons_cons]
      cases v with
      | zero =>
          simp [jsMapGet_cons]
      | succ v =>
          have hv' : v < t.length := by
            rw [List.length_cons] at hv
            omega
          have hget : (a :: t).get ⟨v + 1, hv⟩ = t.get ⟨v, hv'⟩ := rfl
          rw [jsMapGet_cons, hget,
            if_neg (fun he => hnd.1 (by
              rw [show a = t.get ⟨v, hv'⟩ from he]
              exact List.get_mem t v hv'))]
          have hzip : t.zip ((List.range t.length).map (· + 1))
              = (t.zip (List.range t.length)).map (fun p => (p.1, p.2 + 1)) := by
            rw [List.zip_map_right]
            rfl
          rw [hzip, jsMapGet_map_succ, ih hnd.2 v hv']
          rfl

theorem jsMapGet_zip_range_none : ∀ (l : List Nat) (x : Nat), x ∉ l →
    jsMapGet (l.zip (List.range l.length)) x = none := by
  intro l
  induction l with
  | nil =>
      intro x _
      rfl
  | cons a t ih =>
      intro x hx
      rw [List.length_cons, List.range_succ_eq_map, List.zip_cons_cons, jsMapGet_cons,
        if_neg (fun he => hx (by
          rw [← show a = x from he]
          exact List.mem_cons_self a t))]
      have hzip : t.zip ((List.range t.length).map (· + 1))
          = (t.zip (List.range t.length)).map (fun p => (p.1, p.2 + 1)) := by
        rw [List.zip_map_right]
        rfl
      rw [hzip, jsMapGet_map_succ, ih x (fun hxt => hx (List.mem_cons_of_mem a hxt))]
      rfl

theorem mapExcept_ok_of {α β : Type} (g : α → Except String β) (h : α → β) :
    ∀ (l : List α), (∀ a ∈ l, g a = .ok (h a)) → mapExcept g l = .ok (l.map h) := by
  intro l
  induction l with
  | nil =>
      intro _
      rfl
  | cons a l ih =>
      intro hl
      show (g a >>= fun b => mapExcept g l >>= fun bs => Except.ok (b :: bs)) = _
      rw [hl a (by simp), ih (fun b hb => hl b (by simp [hb]))]
      rfl

theorem mangledNode_ok (m : List (Nat × Nat)) (node : NodeData) (newId : Nat)
    (h : jsMapGet m node.id = some newId) :
    mangledNode m node
      = .ok { node with id := newId, linksTo := node.linksTo.filterMap (jsMapGet m) } := by
  unfold mangledNode
  rw [h]

theorem mangle_core (filtered : List NodeData) (shuffled : List Nat)
    (hperm : shuffled.Perm (filtered.map NodeData.id))
    (hnd : (filtered.map NodeData.id).Nodup) :
    mapExcept (mangledNode (mangledIDs shuffled)) filtered
      = .ok (filtered.map (fun n =>
          { n with id := (jsMapGet (mangledIDs shuffled) n.id).getD 0,
                   linksTo := (n.linksTo.filter (fun t =>
                      decide (t ∈ filtered.map NodeData.id))).map
                        (fun x => (jsMapGet (mangledIDs shuffled) x).getD 0) }))
    ∧ ((filtered.map NodeData.id).map
        (fun x => (jsMapGet (mangledIDs shuffled) x).getD 0)).Perm
        (List.range filtered.length)
    ∧ (∀ i ∈ filtered.map NodeData.id, ∀ j ∈ filtered.map NodeData.id,
        (jsMapGet (mangledIDs shuffled) i).getD 0 = (jsMapGet (mangledIDs shuffled) j).getD 0
        → i = j)
    ∧ (∀ i ∈ filtered.map NodeData.id,
        (jsMapGet (mangledIDs shuffled) i).getD 0 < filtered.length) := by
  have hnd_sh : shuffled.Nodup := (hperm.nodup_iff).mpr hnd
  have hM : mangledIDs shuffled = shuffled.zip (List.range shuffled.length) :=
    mangledIDs_eq_zip shuffled hnd_sh
  have hlen : shuffled.length = filtered.length := by
    rw [hperm.length_eq, List.length_map]
  have hmem_iff : ∀ x : Nat, x ∈ shuffled ↔ x ∈ filtered.map NodeData.id :=
    fun x => hperm.mem_iff
  have hsome : ∀ x ∈ shuffled, jsMapGet (mangledIDs shuffled) x
      = some ((jsMapGet (mangledIDs shuffled) x).getD 0)
      ∧ (jsMapGet (mangledIDs shuffled) x).getD 0 < filtered.length := by
    intro x hx
    obtain ⟨⟨v, hv⟩, hget⟩ := List.mem_iff_get.mp hx
    have h1 : jsMapGet (mangledIDs shuffled) x = some v := by
      rw [hM, ← hget]
      exact jsMapGet_zip_range shuffled hnd_sh v hv
    rw [h1]
    refine ⟨rfl, ?_⟩
    show v < filtered.length
    omega
  have hnone : ∀ x : Nat, x ∉ shuffled → jsMapGet (mangledIDs shuffled) x = none := by
    intro x hx
    rw [hM]
    exact jsMapGet_zip_range_none shuffled x hx
  have hlinks : ∀ (ts : List Nat), ts.filterMap (jsMapGet (mangledIDs shuffled))
      = (ts.filter (fun t => decide (t ∈ filtered.map NodeData.id))).map
          (fun x => (jsMapGet (mangledIDs shuffled) x).getD 0) := by
    intro ts
    induction ts with
    | nil => rfl
    | cons t ts ih =>
        by_cases ht : t ∈ filtered.map NodeData.id
        · obtain ⟨h1, _⟩ := hsome t ((hmem_iff t).mpr ht)
          rw [List.filterMap_cons_some h1,
            List.filter_cons_of_pos (by simpa using ht), List.map_cons, ih]
        · rw [List.filterMap_cons_none (hnone t (fun hc => ht ((hmem_iff t).mp hc))),
            List.filter_cons_of_neg (by simpa using ht), ih]
  refine ⟨?_, ?_, ?_, ?_⟩
  · apply mapExcept_ok_of
    intro n hn
    have hxm : n.id ∈ shuffled := (hmem_iff n.id).mpr (List.mem_map_of_mem NodeData.id hn)
    obtain ⟨h1, _⟩ := hsome n.id hxm
    rw [mangledNode_ok _ n _ h1, hlinks n.linksTo]
  · have key : ∀ (m' : List (Nat × Nat)),
        (∀ (v : Nat) (hv : v < shuffled.length), jsMapGet m' (shuffled.get ⟨v, hv⟩) = some v) →
        shuffled.map (fun x => (jsMapGet m' x).getD 0) = List.range filtered.length := by
      intro m' hpt
      apply List.ext_getElem
      · rw [List.length_map, List.length_range, hlen]
      · intro n h1 h2
        rw [List.getElem_map, List.getElem_range]
        have hn : n < shuffled.length := by
          rw [List.length_map] at h1
          exact h1
        have h3 := hpt n hn
        rw [show shuffled[n] = shuffled.get ⟨n, hn⟩ from rfl, h3]
        rfl
    have hmapsh : shuffled.map (fun x => (jsMapGet (mangledIDs shuffled) x).getD 0)
        = List.range filtered.length := by
      apply key
      intro v hv
      rw [hM]
      exact jsMapGet_zip_range shuffled hnd_sh v hv
    have h4 : ((filtered.map NodeData.id).map
        (fun x => (jsMapGet (mangledIDs shuffled) x).getD 0)).Perm
        (shuffled.map (fun x => (jsMapGet (mangledIDs shuffled) x).getD 0)) :=
      (hperm.map _).symm
    rw [hmapsh] at h4
    exact h4
  · intro i hi j hj hij
    obtain ⟨⟨v, hv⟩, hgv⟩ := List.mem_iff_get.mp ((hmem_iff i).mpr hi)
    obtain ⟨⟨w, hw⟩, hgw⟩ := List.mem_iff_get.mp ((hmem_iff j).mpr hj)
    have h1 : jsMapGet (mangledIDs shuffled) i = some v := by
      rw [hM, ← hgv]
      exact jsMapGet_zip_range shuffled hnd_sh v hv
    have h2 : jsMapGet (mangledIDs shuffled) j = some w := by
      rw [hM, ← hgw]
      exact jsMapGet_zip_range shuffled hnd_sh w hw
    rw [h1, h2] at hij
    have hvw : v = w := hij
    rw [← hgv, ← hgw]
    exact congrArg shuffled.get (Fin.ext hvw)
  · intro i hi
    exact (hsome i ((hmem_iff i).mpr hi)).2

/-- C2: for a snapshot with distinct node ids and any retained member-name
set, the anonymizer succeeds and relabels through a map `f` that is injective
on the retained original ids, sending them onto exactly `{0, …, k-1}` for
`k` retained nodes (so the output ids are a permutation of `[0, k)` with no
duplicates); each node's `linksTo` keeps exactly the entries whose target is
retained, rewritten through `f`, and drops the others; consequently every id
appearing anywhere in the output lies below `k` — no original id survives
unremapped. -/
theorem mangled_ids_form_dense_bijection (all : List NodeData) (retained : List Name)
    (rand : Nat → Nat) (hids : (all.map NodeData.id).Nodup) :
    ∃ (out : List NodeData) (f : Nat → Nat),
      mangledNodeData all retained rand = .ok out
      ∧ (out.map NodeData.id).Perm
          (List.range (filteredNodeData all retained).length)
      ∧ (((filteredNodeData all retained).map NodeData.id).map f).Perm
          (List.range (filteredNodeData all retained).length)
      ∧ out.Perm ((filteredNodeData all retained).map (fun n =>
          { n with id := f n.id,
                   linksTo := (n.linksTo.filter (fun t =>
                      decide (t ∈ (filteredNodeData all retained).map NodeData.id))).map f }))
      ∧ (∀ i ∈ (filteredNodeData all retained).map NodeData.id,
          ∀ j ∈ (filteredNodeData all retained).map NodeData.id, f i = f j → i = j)
      ∧ (∀ n' ∈ out, n'.id < (filteredNodeData all retained).length
          ∧ ∀ t ∈ n'.linksTo, t < (filteredNodeData all retained).length) := by
  have hnd_ids : ((filteredNodeData all retained).map NodeData.id).Nodup :=
    List.Nodup.sublist (List.Sublist.map NodeData.id (List.filter_sublist all)) hids
  obtain ⟨hok, hpermf, hinj, hlt⟩ := mangle_core (filteredNodeData all retained)
    (fisherYates rand ((filteredNodeData all retained).map NodeData.id))
    (fisherYates_perm _ _) hnd_ids
  refine ⟨List.insertionSort idLe ((filteredNodeData all retained).map (fun n =>
      { n with
          id := (jsMapGet (mangledIDs (fisherYates rand
            ((filteredNodeData all retained).map NodeData.id))) n.id).getD 0,
          linksTo := (n.linksTo.filter (fun t =>
            decide (t ∈ (filteredNodeData all retained).map NodeData.id))).map
              (fun x => (jsMapGet (mangledIDs (fisherYates rand
                ((filteredNodeData all retained).map NodeData.id))) x).getD 0) })),
    fun x => (jsMapGet (mangledIDs (fisherYates rand
      ((filteredNodeData all retained).map NodeData.id))) x).getD 0,
    ?_, ?_, hpermf, ?_, hinj, ?_⟩
  · show (mapExcept (mangledNode (mangledIDs (fisherYates rand
        ((filteredNodeData all retained).map NodeData.id)))) (filteredNodeData all retained)).map
        (List.insertionSort idLe) = _
    rw [hok]
    rfl
  · have hsp := List.perm_insertionSort idLe ((filteredNodeData all retained).map (fun n =>
      { n with
          id := (jsMapGet (mangledIDs (fisherYates rand
            ((filteredNodeData all retained).map NodeData.id))) n.id).getD 0,
          linksTo := (n.linksTo.filter (fun t =>
            decide (t ∈ (filteredNodeData all retained).map NodeData.id))).map
              (fun x => (jsMapGet (mangledIDs (fisherYates rand
                ((filteredNodeData all retained).map NodeData.id))) x).getD 0) }))
    refine ((hsp.map NodeData.id).trans ?_)
    rw [List.map_map]
    rw [List.map_map] at hpermf
    exact hpermf
  · exact List.perm_insertionSort idLe _
  · intro n' hn'
    have hsp := List.perm_insertionSort idLe ((filteredNodeData all retained).map (fun n =>
      { n with
          id := (jsMapGet (mangledIDs (fisherYates rand
            ((filteredNodeData all retained).map NodeData.id))) n.id).getD 0,
          linksTo := (n.linksTo.filter (fun t =>
            decide (t ∈ (filteredNodeData all retained).map NodeData.id))).map
              (fun x => (jsMapGet (mangledIDs (fisherYates rand
                ((filteredNodeData all retained).map NodeData.id))) x).getD 0) }))
    rw [hsp.mem_iff, List.mem_map] at hn'
    obtain ⟨n, hn, hne⟩ := hn'
    rw [← hne]
    constructor
    · exact hlt n.id (List.mem_map_of_mem NodeData.id hn)
    · intro t ht
      rw [List.mem_map] at ht
      obtain ⟨t0, ht0, ht0e⟩ := ht
      rw [List.mem_filter] at ht0
      rw [← ht0e]
      exact hlt t0 (by simpa using ht0.2)

/-- C2 witness. -/
theorem mangled_ids_witness :
    (mangleDemo.map NodeData.id).Nodup
    ∧ ∃ (out : List NodeData) (f : Nat → Nat),
      mangledNodeData mangleDemo [str "a", str "b"] (fun i => i) = .ok out
      ∧ (out.map NodeData.id).Perm
          (List.range (filteredNodeData mangleDemo [str "a", str "b"]).length)
      ∧ (((filteredNodeData mangleDemo [str "a", str "b"]).map NodeData.id).map f).Perm
          (List.range (filteredNodeData mangleDemo [str "a", str "b"]).length)
      ∧ out.Perm ((filteredNodeData mangleDemo [str "a", str "b"]).map (fun n =>
          { n with id := f n.id,
                   linksTo := (n.linksTo.filter (fun t =>
                      decide (t ∈ (filteredNodeData mangleDemo
                        [str "a", str "b"]).map NodeData.id))).map f }))
      ∧ (∀ i ∈ (filteredNodeData mangleDemo [str "a", str "b"]).map NodeData.id,
          ∀ j ∈ (filteredNodeData mangleDemo [str "a", str "b"]).map NodeData.id,
          f i = f j → i = j)
      ∧ (∀ n' ∈ out, n'.id < (filteredNodeData mangleDemo [str "a", str "b"]).length
          ∧ ∀ t ∈ n'.linksTo,
              t < (filteredNodeData mangleDemo [str "a", str "b"]).length) :=
  ⟨by decide,
    mangled_ids_form_dense_bijection mangleDemo [str "a", str "b"] (fun i => i) (by decide)⟩

/-! ## Lexicographic name order (C4) -/

theorem nameLeB_refl (a : Name) : nameLeB a a = true := by
  induction a with
  | nil => rfl
  | cons c a ih =>
      unfold nameLeB
      rw [if_neg (lt_irrefl c), if_neg (lt_irrefl c)]
      exact ih

theorem nameLeB_total (a : Name) : ∀ (b : Name), nameLeB a b = true ∨ nameLeB b a = true := by
  induction a with
  | nil =>
      intro b
      exact Or.inl rfl
  | cons x a ih =>
      intro b
      cases b with
      | nil => exact Or.inr rfl
      | cons y b =>
          rcases lt_trichotomy x y with h | h | h
          · refine Or.inl ?_
            unfold nameLeB
            rw [if_pos h]
          · subst h
            unfold nameLeB
            simp only [if_neg (lt_irrefl x)]
            exact ih b
          · refine Or.inr ?_
            unfold nameLeB
            rw [if_pos h]

theorem nameLeB_trans : ∀ (a b c : Name), nameLeB a b = true → nameLeB b c = true →
    nameLeB a c = true := by
  intro a
  induction a with
  | nil =>
      intro b c _ _
      rfl
  | cons x a ih =>
      intro b c hab hbc
      cases b with
      | nil => simp [nameLeB] at hab
      | cons y b =>
          cases c with
          | nil => simp [nameLeB] at hbc
          | cons z c =>
              unfold nameLeB at hab hbc ⊢
              by_cases hxy : x < y
              · by_cases hyz : y < z
                · rw [if_pos (by omega)]
                · rw [if_neg hyz] at hbc
                  by_cases hzy : z < y
                  · rw [if_pos hzy] at hbc
                    exact absurd hbc (by simp)
                  · have hyz' : y = z := by omega
                    subst hyz'
                    rw [if_pos hxy]
              · rw [if_neg hxy] at hab
                by_cases hyx : y < x
                · rw [if_pos hyx] at hab
                  exact absurd hab (by simp)
                · rw [if_neg hyx] at hab
                  have hxy' : x = y := by omega
                  subst hxy'
                  by_cases hxz : x < z
                  · rw [if_pos hxz]
                  · rw [if_neg hxz] at hbc ⊢
                    by_cases hzx : z < x
                    · rw [if_pos hzx] at hbc
                      exact absurd hbc (by simp)
                    · rw [if_neg hzx] at hbc ⊢
                      exact ih b c hab hbc

/-! ## More JS `Map` lemmas (C4) -/

theorem jsMapGet_mem {κ β : Type} [DecidableEq κ] (m : List (κ × β)) (k : κ) (v : β)
    (h : jsMapGet m k = some v) : (k, v) ∈ m := by
  unfold jsMapGet at h
  rcases hf : m.find? (fun p => decide (p.1 = k)) with _ | p
  · rw [hf] at h
    simp at h
  · rcases p with ⟨pk, pv⟩
    rw [hf] at h
    have hp := List.mem_of_find?_eq_some hf
    have hk : pk = k := of_decide_eq_true (by simpa using List.find?_some hf)
    have hv : pv = v := by injection h
    rw [← hk, ← hv]
    exact hp

theorem find_map_overwrite {κ β : Type} [DecidableEq κ] (m : List (κ × β)) (k : κ) (v : β)
    (h : (m.find? (fun p => decide (p.1 = k))).isSome = true) :
    jsMapGet (m.map (fun p => if p.1 = k then (k, v) else p)) k = some v := by
  induction m with
  | nil => simp at h
  | cons p m ih =>
      simp only [List.map_cons]
      by_cases hp : p.1 = k
      · rw [if_pos hp, jsMapGet_cons, if_pos (show ((k, v) : κ × β).1 = k from rfl)]
      · rw [if_neg hp, jsMapGet_cons, if_neg hp]
        apply ih
        rw [List.find?_cons_of_neg _ (by simp [hp])] at h
        exact h

theorem find_map_overwrite_other {κ β : Type} [DecidableEq κ] (m : List (κ × β)) (k k' : κ)
    (v : β) (hne : k' ≠ k) :
    jsMapGet (m.map (fun p => if p.1 = k then (k, v) else p)) k' = jsMapGet m k' := by
  induction m with
  | nil => rfl
  | cons p m ih =>
      simp only [List.map_cons]
      by_cases hp : p.1 = k
      · rw [if_pos hp, jsMapGet_cons, jsMapGet_cons,
          if_neg (show ¬ ((k, v) : κ × β).1 = k' from fun he => hne he.symm),
          if_neg (by rw [hp]; exact fun he => hne he.symm)]
        exact ih
      · rw [if_neg hp, jsMapGet_cons, jsMapGet_cons]
        by_cases hpk : p.1 = k'
        · rw [if_pos hpk, if_pos hpk]
        · rw [if_neg hpk, if_neg hpk]
          exact ih

theorem jsMapGet_jsMapSet_self {κ β : Type} [DecidableEq κ] (m : List (κ × β)) (k : κ)
    (v : β) : jsMapGet (jsMapSet m k v) k = some v := by
  unfold jsMapSet
  by_cases h : (m.find? (fun p => decide (p.1 = k))).isSome = true
  · rw [if_pos h]
    exact find_map_overwrite m k v h
  · rw [if_neg h]
    have hnone : jsMapGet m k = none := by
      unfold jsMapGet
      rcases hf : m.find? (fun p => decide (p.1 = k)) with _ | p
      · rw [hf]
        rfl
      · rw [hf] at h
        simp at h
    rw [jsMapGet_append_left_none m _ k hnone, jsMapGet_cons,
      if_pos (show ((k, v) : κ × β).1 = k from rfl)]

theorem jsMapGet_jsMapSet_other {κ β : Type} [DecidableEq κ] (m : List (κ × β)) (k k' : κ)
    (v : β) (hne : k' ≠ k) : jsMapGet (jsMapSet m k v) k' = jsMapGet m k' := by
  unfold jsMapSet
  by_cases h : (m.find? (fun p => decide (p.1 = k))).isSome = true
  · rw [if_pos h]
    exact find_map_overwrite_other m k k' v hne
  · rw [if_neg h]
    unfold jsMapGet
    rw [List.find?_append]
    rcases hf : m.find? (fun p => decide (p.1 = k')) with _ | p
    · rw [hf]
      show (List.find? (fun p => decide (p.1 = k')) [(k, v)]).map Prod.snd
          = (none : Option (κ × β)).map Prod.snd
      rw [List.find?_cons_of_neg _ (by
        simp only [decide_eq_true_eq]
        exact fun he => hne he.symm)]
      rfl
    · rw [hf]
      rfl

theorem jsMapGet_map_assoc {α κ β : Type} [DecidableEq κ] (kf : α → κ) (vf : α → β) :
    ∀ (l : List α), (l.map kf).Nodup → ∀ a ∈ l,
    jsMapGet (l.map (fun x => (kf x, vf x))) (kf a) = some (vf a) := by
  intro l
  induction l with
  | nil =>
      intro _ a ha
      simp at ha
  | cons b l ih =>
      intro hnd a ha
      rw [List.map_cons, List.nodup_cons] at hnd
      rw [List.map_cons, jsMapGet_cons]
      rcases List.mem_cons.mp ha with h | h
      · subst h
        rw [if_pos rfl]
      · rw [if_neg (fun he => hnd.1 (by
          rw [show kf b = kf a from he]
          exact List.mem_map_of_mem kf h))]
        exact ih hnd.2 a h

theorem jsMapGet_map_assoc_none {α κ β : Type} [DecidableEq κ] (kf : α → κ) (vf : α → β) :
    ∀ (l : List α) (k : κ), (∀ a ∈ l, kf a ≠ k) →
    jsMapGet (l.map (fun x => (kf x, vf x))) k = none := by
  intro l
  induction l with
  | nil =>
      intro k _
      rfl
  | cons b l ih =>
      intro k hk
      rw [List.map_cons, jsMapGet_cons, if_neg (hk b (by simp))]
      exact ih k (fun a ha => hk a (by simp [ha]))

theorem length_filterMap_eq_filter_isSome {α β : Type} (g : α → Option β) :
    ∀ (l : List α), (l.filterMap g).length = (l.filter (fun a => (g a).isSome)).length := by
  intro l
  induction l with
  | nil => rfl
  | cons a l ih =>
      rcases hg : g a with _ | b
      · rw [List.filterMap_cons_none hg, List.filter_cons_of_neg (by simp [hg]), ih]
      · rw [List.filterMap_cons_some hg, List.filter_cons_of_pos (by simp [hg]),
          List.length_cons, List.length_cons, ih]

theorem any_decide_eq_mem (i : Nat) : ∀ (ts : List Nat),
    ts.any (fun t => decide (t = i)) = decide (i ∈ ts) := by
  intro ts
  induction ts with
  | nil => rfl
  | cons t ts ih =>
      rw [List.any_cons, ih]
      by_cases h : t = i
      · subst h
        simp
      · have hne : ¬ i = t := fun he => h he.symm
        simp [h, hne]

theorem setAdd_idem {α : Type} [DecidableEq α] (s : List α) (x : α) :
    setAdd (setAdd s x) x = setAdd s x := by
  unfold setAdd
  by_cases h : x ∈ s
  · rw [if_pos h, if_pos h]
  · rw [if_neg h, if_pos (by simp)]

theorem setAdd_append {α : Type} [DecidableEq α] (s : List α) (x : α) (h : x ∉ s) :
    setAdd s x = s ++ [x] := by
  unfold setAdd
  rw [if_neg h]

/-! ## Characterizing the statistics maps (C4) -/

theorem idToSubreddit_eq (nodeData : List NodeData)
    (hids : (nodeData.map NodeData.id).Nodup) :
    idToSubreddit nodeData = nodeData.map (fun n => (n.id, n.subreddit)) := by
  unfold idToSubreddit
  have h := foldl_jsMapSet_fresh NodeData.id NodeData.subreddit nodeData [] hids
    (fun a _ => rfl)
  simpa using h

theorem idToSubreddit_get_iff (nodeData : List NodeData) (hwf : snapshotWf nodeData)
    (n : NodeData) (hn : n ∈ nodeData) :
    ∀ t : Nat, jsMapGet (idToSubreddit nodeData) t = some n.subreddit ↔ t = n.id := by
  intro t
  constructor
  · intro h
    rw [idToSubreddit_eq nodeData hwf.1] at h
    have hmem := jsMapGet_mem _ _ _ h
    rw [List.mem_map] at hmem
    obtain ⟨a, ha, he⟩ := hmem
    have h1 : a.id = t := congrArg Prod.fst he
    have h2 : a.subreddit = n.subreddit := congrArg Prod.snd he
    have h3 : a = n := List.inj_on_of_nodup_map hwf.2.1 ha hn h2
    rw [← h1, h3]
  · intro h
    subst h
    rw [idToSubreddit_eq nodeData hwf.1]
    exact jsMapGet_map_assoc NodeData.id NodeData.subreddit nodeData hwf.1 n hn

theorem inDegree_inner (nodeData : List NodeData) (src : NodeData) (nm : Name) (i : Nat)
    (hne : nm ≠ [])
    (hiff : ∀ t : Nat, jsMapGet (idToSubreddit nodeData) t = some nm ↔ t = i) :
    ∀ (ts : List Nat) (m : List (Name × List Name)),
    (jsMapGet (ts.foldl
        (fun m toId =>
          match jsMapGet (idToSubreddit nodeData) toId with
          | some toSubreddit =>
              if toSubreddit = [] then m
              else jsMapSet m toSubreddit
                (setAdd ((jsMapGet m toSubreddit).getD []) src.subreddit)
          | none => m)
        m) nm).getD []
      = if i ∈ ts then setAdd ((jsMapGet m nm).getD []) src.subreddit
        else (jsMapGet m nm).getD [] := by
  intro ts
  induction ts with
  | nil =>
      intro m
      rw [List.foldl_nil, if_neg (by simp)]
  | cons t ts ih =>
      intro m
      rcases hg : jsMapGet (idToSubreddit nodeData) t with _ | toSub
      · have hti : ¬ t = i := by
          intro he
          rw [(hiff t).mpr he] at hg
          exact Option.noConfusion hg
        simp only [List.foldl_cons, hg]
        rw [ih m]
        by_cases him : i ∈ ts
        · rw [if_pos him, if_pos (List.mem_cons_of_mem t him)]
        · rw [if_neg him, if_neg (fun hmem => by
            rcases List.mem_cons.mp hmem with he | hmem2
            · exact hti he.symm
            · exact him hmem2)]
      · by_cases hnm : toSub = nm
        · subst hnm
          have hti : t = i := (hiff t).mp hg
          simp only [List.foldl_cons, hg]
          rw [if_neg hne, ih _, jsMapGet_jsMapSet_self]
          have hmem : i ∈ t :: ts := by
            rw [← hti]
            exact List.mem_cons_self t ts
          by_cases him : i ∈ ts
          · rw [if_pos him, if_pos hmem]
            show setAdd (setAdd _ _) _ = _
            rw [setAdd_idem]
          · rw [if_neg him, if_pos hmem]
            rfl
        · have hti : ¬ t = i := by
            intro he
            rw [(hiff t).mpr he] at hg
            exact hnm (Option.some.inj hg).symm
          simp only [List.foldl_cons, hg]
          by_cases hemp : toSub = []
          · rw [if_pos hemp, ih m]
            by_cases him : i ∈ ts
            · rw [if_pos him, if_pos (List.mem_cons_of_mem t him)]
            · rw [if_neg him, if_neg (fun hmem => by
                rcases List.mem_cons.mp hmem with he | hmem2
                · exact hti he.symm
                · exact him hmem2)]
          · rw [if_neg hemp, ih _,
              jsMapGet_jsMapSet_other _ _ _ _ (fun he => hnm he.symm)]
            by_cases him : i ∈ ts
            · rw [if_pos him, if_pos (List.mem_cons_of_mem t him)]
            · rw [if_neg him, if_neg (fun hmem => by
                rcases List.mem_cons.mp hmem with he | hmem2
                · exact hti he.symm
                · exact him hmem2)]

theorem inDegree_outer (nodeData : List NodeData) (nm : Name) (i : Nat)
    (hne : nm ≠ [])
    (hiff : ∀ t : Nat, jsMapGet (idToSubreddit nodeData) t = some nm ↔ t = i) :
    ∀ (srcs : List NodeData) (m : List (Name × List Name)),
    (srcs.map NodeData.subreddit).Nodup →
    (∀ src ∈ srcs, src.subreddit ∉ (jsMapGet m nm).getD []) →
    (jsMapGet (srcs.foldl
        (fun m node =>
          node.linksTo.foldl
            (fun m toId =>
              match jsMapGet (idToSubreddit nodeData) toId with
              | some toSubreddit =>
                  if toSubreddit = [] then m
                  else jsMapSet m toSubreddit
                    (setAdd ((jsMapGet m toSubreddit).getD []) node.subreddit)
              | none => m)
            m)
        m) nm).getD []
      = (jsMapGet m nm).getD []
        ++ (srcs.filter (fun src => decide (i ∈ src.linksTo))).map NodeData.subreddit := by
  intro srcs
  induction srcs with
  | nil =>
      intro m _ _
      simp
  | cons src srcs ih =>
      intro m hnd hfresh
      rw [List.map_cons, List.nodup_cons] at hnd
      rw [List.foldl_cons]
      have hstep := inDegree_inner nodeData src nm i hne hiff src.linksTo m
      by_cases hil : i ∈ src.linksTo
      · rw [if_pos hil] at hstep
        rw [setAdd_append _ _ (hfresh src (by simp))] at hstep
        rw [ih _ hnd.2 ?fr, hstep, List.filter_cons_of_pos (by simpa using hil),
          List.map_cons, List.append_assoc]
        rfl
        case fr =>
          intro src' hsrc'
          rw [hstep]
          intro hmem
          rcases List.mem_append.mp hmem with hmem | hmem
          · exact hfresh src' (by simp [hsrc']) hmem
          · rw [List.mem_singleton] at hmem
            exact hnd.1 (hmem ▸ List.mem_map_of_mem NodeData.subreddit hsrc')
      · rw [if_neg hil] at hstep
        rw [ih _ hnd.2 ?fr2, hstep, List.filter_cons_of_neg (by simpa using hil)]
        case fr2 =>
          intro src' hsrc'
          rw [hstep]
          exact hfresh src' (by simp [hsrc'])

theorem inDegreeMap_spec (nodeData : List NodeData) (hwf : snapshotWf nodeData)
    (n : NodeData) (hn : n ∈ nodeData) (hne : n.subreddit ≠ []) :
    (jsMapGet (inDegreeMap nodeData) n.subreddit).getD []
      = (nodeData.filter (fun m => decide (n.id ∈ m.linksTo))).map NodeData.subreddit := by
  have h := inDegree_outer nodeData n.subreddit n.id hne
    (idToSubreddit_get_iff nodeData hwf n hn) nodeData [] hwf.2.1
    (fun src _ => by simp [jsMapGet])
  unfold inDegreeMap
  rw [h]
  simp [jsMapGet]

theorem outConnections_spec (nodeData : List NodeData)
    (hids : (nodeData.map NodeData.id).Nodup) (ts : List Nat) :
    (ts.filterMap (jsMapGet (idToSubreddit nodeData))).length
      = (ts.filter (fun t => decide (t ∈ nodeData.map NodeData.id))).length := by
  rw [length_filterMap_eq_filter_isSome]
  congr 1
  apply List.filter_congr
  intro t _
  by_cases ht : t ∈ nodeData.map NodeData.id
  · obtain ⟨a, ha, hae⟩ := List.mem_map.mp ht
    rw [idToSubreddit_eq nodeData hids, ← hae,
      jsMapGet_map_assoc NodeData.id NodeData.subreddit nodeData hids a ha]
    exact (decide_eq_true (List.mem_map.mpr ⟨a, ha, rfl⟩)).symm
  · rw [idToSubreddit_eq nodeData hids,
      jsMapGet_map_assoc_none NodeData.id NodeData.subreddit nodeData t
        (fun a ha he => ht (he ▸ List.mem_map_of_mem NodeData.id ha))]
    simp [ht]

theorem statsOf_totalDegree (nodeData : List NodeData) (hwf : snapshotWf nodeData)
    (n : NodeData) (hn : n ∈ nodeData) (hne : n.subreddit ≠ []) :
    (statsOf nodeData n).totalDegree = specTotalDegree nodeData n := by
  show (n.linksTo.filterMap (jsMapGet (idToSubreddit nodeData))).length
      + ((jsMapGet (inDegreeMap nodeData) n.subreddit).getD []).length
    = specTotalDegree nodeData n
  rw [outConnections_spec nodeData hwf.1 n.linksTo,
    inDegreeMap_spec nodeData hwf n hn hne, List.length_map]
  rfl

theorem calculateNodeStatistics_get (nodeData : List NodeData)
    (hids : (nodeData.map NodeData.id).Nodup) (n : NodeData) (hn : n ∈ nodeData) :
    jsMapGet (calculateNodeStatistics nodeData) n.id = some (statsOf nodeData n) := by
  unfold calculateNodeStatistics
  rw [foldl_jsMapSet_fresh NodeData.id (statsOf nodeData) nodeData [] hids (fun a _ => rfl),
    List.nil_append]
  exact jsMapGet_map_assoc NodeData.id (statsOf nodeData) nodeData hids n hn

theorem subredditMap_get (nodeData : List NodeData)
    (hnames : (nodeData.map NodeData.subreddit).Nodup) (nm : Name) (v : SmallSubreddit)
    (h : jsMapGet (subredditMap nodeData) nm = some v) :
    ∃ n ∈ nodeData, v = (⟨n.id, n.subreddit⟩ : SmallSubreddit) ∧ n.subreddit = nm := by
  unfold subredditMap at h
  rw [foldl_jsMapSet_fresh NodeData.subreddit
      (fun n => (⟨n.id, n.subreddit⟩ : SmallSubreddit)) nodeData [] hnames (fun a _ => rfl),
    List.nil_append] at h
  have hmem := jsMapGet_mem _ _ _ h
  rw [List.mem_map] at hmem
  obtain ⟨n, hn, he⟩ := hmem
  exact ⟨n, hn, (congrArg Prod.snd he).symm, congrArg Prod.fst he⟩

theorem find_id_of_nodup (n : NodeData) :
    ∀ (l : List NodeData), (l.map NodeData.id).Nodup → n ∈ l →
    l.find? (fun a => decide (a.id = n.id)) = some n := by
  intro l
  induction l with
  | nil => intro _ hn; exact absurd hn (List.not_mem_nil n)
  | cons a l ih =>
      intro hnd hn
      rw [List.map_cons, List.nodup_cons] at hnd
      rcases List.mem_cons.mp hn with he | hn2
      · subst he
        exact List.find?_cons_of_pos l (by simp)
      · have hne : ¬ a.id = n.id := fun he =>
          hnd.1 (he ▸ List.mem_map_of_mem NodeData.id hn2)
        rw [List.find?_cons_of_neg l (by simpa using hne)]
        exact ih hnd.2 hn2

theorem specDegreeOfId_of_mem (nodeData : List NodeData) (hwf : snapshotWf nodeData)
    (n : NodeData) (hn : n ∈ nodeData) :
    specDegreeOfId nodeData n.id = specTotalDegree nodeData n := by
  unfold specDegreeOfId
  rw [find_id_of_nodup n nodeData hwf.1 hn]
  rfl

theorem degOf_eq_spec (nodeData : List NodeData) (hwf : snapshotWf nodeData)
    (n : NodeData) (hn : n ∈ nodeData) (hne : n.subreddit ≠ []) :
    degOf (calculateNodeStatistics nodeData) ⟨n.id, n.subreddit⟩
      = specDegreeOfId nodeData n.id := by
  unfold degOf
  show ((jsMapGet (calculateNodeStatistics nodeData) n.id).map SubredditStats.totalDegree).getD 0
    = specDegreeOfId nodeData n.id
  rw [calculateNodeStatistics_get nodeData hwf.1 n hn]
  show (statsOf nodeData n).totalDegree = specDegreeOfId nodeData n.id
  rw [statsOf_totalDegree nodeData hwf n hn hne, specDegreeOfId_of_mem nodeData hwf n hn]

theorem map_filterMap_eq_filter {α β : Type} (f : β → α) (g : α → Option β)
    (hg : ∀ a b, g a = some b → f b = a) :
    ∀ (l : List α), (l.filterMap g).map f = l.filter (fun a => (g a).isSome) := by
  intro l
  induction l with
  | nil => rfl
  | cons a l ih =>
      rcases hga : g a with _ | b
      · rw [List.filterMap_cons_none hga, List.filter_cons_of_neg (by simp [hga]), ih]
      · rw [List.filterMap_cons_some hga, List.filter_cons_of_pos (by simp [hga]),
          List.map_cons, ih, hg a b hga]

theorem findHub_fold (nodeStats : List (Nat × SubredditStats)) :
    ∀ (l : List SmallSubreddit) (h0 : SmallSubreddit) (d0 : Nat),
    (∀ m ∈ l, ∃ st, jsMapGet nodeStats m.id = some st) →
    ∃ h dh,
      l.foldl
        (fun (acc : Option SmallSubreddit × Nat) node =>
          match jsMapGet nodeStats node.id with
          | some stats =>
              if acc.2 < stats.totalDegree then (some node, stats.totalDegree) else acc
          | none => acc)
        (some h0, d0) = (some h, dh) ∧
      d0 ≤ dh ∧
      (∀ m ∈ l, degOf nodeStats m ≤ dh) ∧
      ((h = h0 ∧ dh = d0) ∨
        (∃ pre post, l = pre ++ h :: post ∧ degOf nodeStats h = dh ∧ d0 < dh ∧
          ∀ m ∈ pre, degOf nodeStats m < dh)) := by
  intro l
  induction l with
  | nil =>
      intro h0 d0 _
      exact ⟨h0, d0, rfl, le_refl d0, fun m hm => absurd hm (List.not_mem_nil m),
        Or.inl ⟨rfl, rfl⟩⟩
  | cons a l ih =>
      intro h0 d0 hsome
      obtain ⟨st, hst⟩ := hsome a (List.mem_cons_self a l)
      have htail : ∀ m ∈ l, ∃ st, jsMapGet nodeStats m.id = some st :=
        fun m hm => hsome m (List.mem_cons_of_mem a hm)
      have hda : degOf nodeStats a = st.totalDegree := by
        unfold degOf
        rw [hst]
        rfl
      rw [List.foldl_cons]
      by_cases hlt : d0 < st.totalDegree
      · have hstep :
            (match jsMapGet nodeStats a.id with
              | some stats =>
                  if (some h0, d0).2 < stats.totalDegree then (some a, stats.totalDegree)
                  else (some h0, d0)
              | none => (some h0, d0))
            = ((some a, st.totalDegree) : Option SmallSubreddit × Nat) := by
          rw [hst]
          show (if d0 < st.totalDegree then _ else _) = _
          rw [if_pos hlt]
        rw [hstep]
        obtain ⟨h, dh, heq, hle, hmax, hcase⟩ := ih a st.totalDegree htail
        refine ⟨h, dh, heq, le_trans (Nat.le_of_lt hlt) hle, ?_, ?_⟩
        · intro m hm
          rcases List.mem_cons.mp hm with he | hm2
          · subst he
            rw [hda]
            exact hle
          · exact hmax m hm2
        · rcases hcase with ⟨hh, hd⟩ | ⟨pre, post, hsplit, hdeg, hgt, hpre⟩
          · refine Or.inr ⟨[], l, by rw [hh, List.nil_append], ?_, ?_,
              fun m hm => absurd hm (List.not_mem_nil m)⟩
            · rw [hh, hda, hd]
            · rw [hd]
              exact hlt
          · refine Or.inr ⟨a :: pre, post, by rw [List.cons_append, hsplit], hdeg,
              lt_trans hlt hgt, ?_⟩
            intro m hm
            rcases List.mem_cons.mp hm with he | hm2
            · subst he
              rw [hda]
              exact hgt
            · exact hpre m hm2
      · have hstep :
            (match jsMapGet nodeStats a.id with
              | some stats =>
                  if (some h0, d0).2 < stats.totalDegree then (some a, stats.totalDegree)
                  else (some h0, d0)
              | none => (some h0, d0))
            = ((some h0, d0) : Option SmallSubreddit × Nat) := by
          rw [hst]
          show (if d0 < st.totalDegree then _ else _) = _
          rw [if_neg hlt]
        rw [hstep]
        obtain ⟨h, dh, heq, hle, hmax, hcase⟩ := ih h0 d0 htail
        refine ⟨h, dh, heq, hle, ?_, ?_⟩
        · intro m hm
          rcases List.mem_cons.mp hm with he | hm2
          · subst he
            rw [hda]
            exact le_trans (Nat.le_of_not_lt hlt) hle
          · exact hmax m hm2
        · rcases hcase with ⟨hh, hd⟩ | ⟨pre, post, hsplit, hdeg, hgt, hpre⟩
          · exact Or.inl ⟨hh, hd⟩
          · refine Or.inr ⟨a :: pre, post, by rw [List.cons_append, hsplit], hdeg, hgt, ?_⟩
            intro m hm
            rcases List.mem_cons.mp hm with he | hm2
            · subst he
              rw [hda]
              exact lt_of_le_of_lt (Nat.le_of_not_lt hlt) hgt
            · exact hpre m hm2

theorem findHub_spec (nodeStats : List (Nat × SubredditStats)) (c0 : SmallSubreddit)
    (rest : List SmallSubreddit)
    (hsome : ∀ m ∈ c0 :: rest, ∃ st, jsMapGet nodeStats m.id = some st) :
    ∃ hub pre post,
      findHubInCommunity (c0 :: rest) nodeStats = some hub ∧
      c0 :: rest = pre ++ hub :: post ∧
      (∀ m ∈ c0 :: rest, degOf nodeStats m ≤ degOf nodeStats hub) ∧
      (∀ m ∈ pre, degOf nodeStats m < degOf nodeStats hub) := by
  obtain ⟨h, dh, heq, _, hmax, hcase⟩ := findHub_fold nodeStats (c0 :: rest) c0 0 hsome
  have hfind : findHubInCommunity (c0 :: rest) nodeStats = some h := by
    unfold findHubInCommunity
    rw [List.head?_cons, heq]
  rcases hcase with ⟨hh, hd⟩ | ⟨pre, post, hsplit, hdeg, _, hpre⟩
  · refine ⟨h, [], rest, hfind, by rw [hh, List.nil_append], ?_,
      fun m hm => absurd hm (List.not_mem_nil m)⟩
    intro m hm
    exact le_trans (by rw [← hd]; exact hmax m hm) (Nat.zero_le _)
  · refine ⟨h, pre, post, hfind, hsplit, ?_, ?_⟩
    · intro m hm
      rw [hdeg]
      exact hmax m hm
    · intro m hm
      rw [hdeg]
      exact hpre m hm

theorem hub_core (nodeData : List NodeData) (hwf : snapshotWf nodeData)
    (hnn : ∀ n ∈ nodeData, n.subreddit ≠ [])
    (mo : List SmallSubreddit)
    (hprov : ∀ m ∈ mo, ∃ n ∈ nodeData, m = (⟨n.id, n.subreddit⟩ : SmallSubreddit))
    (hsorted : mo.Pairwise (fun a b => nameLe a.subreddit b.subreddit))
    (hne : mo ≠ []) :
    ∃ hub, findHubInCommunity mo (calculateNodeStatistics nodeData) = some hub ∧
      hub ∈ mo ∧
      (∀ m ∈ mo, specDegreeOfId nodeData m.id ≤ specDegreeOfId nodeData hub.id) ∧
      (∀ m ∈ mo, specDegreeOfId nodeData m.id = specDegreeOfId nodeData hub.id →
        nameLe hub.subreddit m.subreddit) := by
  have hsome : ∀ m ∈ mo, ∃ st, jsMapGet (calculateNodeStatistics nodeData) m.id = some st := by
    intro m hm
    obtain ⟨n, hn, hv⟩ := hprov m hm
    refine ⟨statsOf nodeData n, ?_⟩
    rw [hv]
    exact calculateNodeStatistics_get nodeData hwf.1 n hn
  have hdeq : ∀ m ∈ mo,
      degOf (calculateNodeStatistics nodeData) m = specDegreeOfId nodeData m.id := by
    intro m hm
    obtain ⟨n, hn, hv⟩ := hprov m hm
    rw [hv]
    exact degOf_eq_spec nodeData hwf n hn (hnn n hn)
  obtain ⟨c0, rest, hcr⟩ := List.exists_cons_of_ne_nil hne
  subst hcr
  obtain ⟨hub, pre, post, hfind, hsplit, hmax, hpre⟩ := findHub_spec _ c0 rest hsome
  have hhub : hub ∈ c0 :: rest := by
    rw [hsplit]
    exact List.mem_append_right pre (List.mem_cons_self hub post)
  refine ⟨hub, hfind, hhub, ?_, ?_⟩
  · intro m hm
    rw [← hdeq m hm, ← hdeq hub hhub]
    exact hmax m hm
  · intro m hm htie
    have hd : degOf (calculateNodeStatistics nodeData) m
        = degOf (calculateNodeStatistics nodeData) hub := by
      rw [hdeq m hm, hdeq hub hhub]
      exact htie
    rw [hsplit] at hm hsorted
    rcases List.mem_append.mp hm with hmp | hmh
    · exact absurd hd (ne_of_lt (hpre m hmp))
    · rcases List.mem_cons.mp hmh with he | hm2
      · subst he
        exact nameLeB_refl m.subreddit
      · exact List.rel_of_pairwise_cons (List.pairwise_append.mp hsorted).2.1 hm2

theorem analyze_mem_shape (nodeData : List NodeData) (comm : CommunityWithHub)
    (hcomm : comm ∈ analyzeSubredditClusters nodeData) :
    ∃ names : List Name,
      comm.members
        = (List.insertionSort smallLe names).filterMap (jsMapGet (subredditMap nodeData)) ∧
      comm.name = findHubInCommunity comm.members (calculateNodeStatistics nodeData) := by
  simp only [analyzeSubredditClusters] at hcomm
  have hcomm2 := (List.perm_insertionSort commSizeGe _).mem_iff.mp hcomm
  rw [List.mem_map] at hcomm2
  obtain ⟨p, hp, hfp⟩ := hcomm2
  refine ⟨p.2, ?_, ?_⟩
  · rw [← hfp]
  · rw [← hfp]

/-- C4 counterexample to the original claim: on the snapshot where `b`, `c`
and `d` all link to the empty-named node 1, the truthiness guard
`if (toSubreddit)` drops every link into `""` from both the undirected graph
and the in-degree sets, so the program reports a community whose designated
hub (`b`, true total degree 2) is beaten by its member `""` (true total
degree 4): hub-maximality fails at an empty-named node. -/
theorem hub_not_max_on_empty_name :
    snapshotWf emptyHubSnap ∧
    ∃ comm ∈ analyzeSubredditClusters emptyHubSnap,
      comm.members ≠ [] ∧
      ∃ hub, comm.name = some hub ∧
        ∃ m ∈ comm.members,
          ¬ specDegreeOfId emptyHubSnap m.id ≤ specDegreeOfId emptyHubSnap hub.id := by
  decide

/-- C4 (amended): on a snapshot all of whose stored names are non-empty (the
truthiness guard `if (toSubreddit)` then never fires), for every non-empty
community reported by `analyzeSubredditClusters` the designated hub is a
member of the community whose total degree (in-degree plus out-degree over
the snapshot's directed edge set) is maximal among the members, and whenever
another member ties that maximal degree the hub's name is alphabetically no
later than the tying member's; in particular the two-node snapshot
apple(id 1, links to 2) / mac(id 2) yields the single community {apple, mac}
with hub "apple". -/
theorem hub_is_max_degree_alphabetical (nodeData : List NodeData)
    (hwf : snapshotWf nodeData) (hnames : ∀ n ∈ nodeData, n.subreddit ≠ []) :
    (∀ comm ∈ analyzeSubredditClusters nodeData, comm.members ≠ [] →
      ∃ hub, comm.name = some hub ∧ hub ∈ comm.members ∧
        (∀ m ∈ comm.members,
          specDegreeOfId nodeData m.id ≤ specDegreeOfId nodeData hub.id) ∧
        (∀ m ∈ comm.members,
          specDegreeOfId nodeData m.id = specDegreeOfId nodeData hub.id →
          nameLe hub.subreddit m.subreddit))
    ∧ analyzeSubredditClusters appleMac
        = [⟨some ⟨1, str "apple"⟩, [⟨1, str "apple"⟩, ⟨2, str "mac"⟩]⟩] := by
  refine ⟨?_, by decide⟩
  intro comm hcomm hne
  obtain ⟨names, hmembers, hname⟩ := analyze_mem_shape nodeData comm hcomm
  have hprov : ∀ m ∈ comm.members,
      ∃ n ∈ nodeData, m = (⟨n.id, n.subreddit⟩ : SmallSubreddit) := by
    intro m hm
    rw [hmembers] at hm
    obtain ⟨nm, hnm, hget⟩ := List.mem_filterMap.mp hm
    obtain ⟨n, hn, hv, _⟩ := subredditMap_get nodeData hwf.2.1 nm m hget
    exact ⟨n, hn, hv⟩
  have hsorted : comm.members.Pairwise (fun a b => nameLe a.subreddit b.subreddit) := by
    rw [hmembers]
    have hnamefix : ∀ nm v, jsMapGet (subredditMap nodeData) nm = some v →
        v.subreddit = nm := by
      intro nm v hgv
      obtain ⟨n, _, hv, hnm⟩ := subredditMap_get nodeData hwf.2.1 nm v hgv
      rw [hv]
      exact hnm
    have hmap := map_filterMap_eq_filter SmallSubreddit.subreddit
      (jsMapGet (subredditMap nodeData)) hnamefix (List.insertionSort smallLe names)
    have hsortpw : (List.insertionSort smallLe names).Pairwise smallLe := by
      haveI : IsTotal Name smallLe := ⟨nameLeB_total⟩
      haveI : IsTrans Name smallLe := ⟨fun a b c => nameLeB_trans a b c⟩
      exact List.sorted_insertionSort smallLe names
    have hpw : (((List.insertionSort smallLe names).filterMap
        (jsMapGet (subredditMap nodeData))).map SmallSubreddit.subreddit).Pairwise
          smallLe := by
      rw [hmap]
      exact List.Pairwise.sublist (List.filter_sublist _) hsortpw
    exact List.pairwise_map.mp hpw
  obtain ⟨hub, hfind, hmem, hmax, htie⟩ :=
    hub_core nodeData hwf hnames comm.members hprov hsorted hne
  refine ⟨hub, ?_, hmem, hmax, htie⟩
  rw [hname]
  exact hfind

theorem hub_witness :
    (snapshotWf appleMac ∧ ∀ n ∈ appleMac, n.subreddit ≠ []) ∧
    ((∀ comm ∈ analyzeSubredditClusters appleMac, comm.members ≠ [] →
      ∃ hub, comm.name = some hub ∧ hub ∈ comm.members ∧
        (∀ m ∈ comm.members,
          specDegreeOfId appleMac m.id ≤ specDegreeOfId appleMac hub.id) ∧
        (∀ m ∈ comm.members,
          specDegreeOfId appleMac m.id = specDegreeOfId appleMac hub.id →
          nameLe hub.subreddit m.subreddit))
    ∧ analyzeSubredditClusters appleMac
        = [⟨some ⟨1, str "apple"⟩, [⟨1, str "apple"⟩, ⟨2, str "mac"⟩]⟩]) :=
  ⟨⟨by decide, by decide⟩,
    hub_is_max_degree_alphabetical appleMac (by decide) (by decide)⟩

end Cloud18
